import Mathlib

/-!
# Verification of the roster reconciliation engine (`sync_to_sheets.py`)

Shallow embedding of the sync engine of the `documents_bot` repository.
The engine reads the authoritative client roster from the relational store,
snapshots the spreadsheet sink, computes a reconciliation plan
(duplicate clears, appends, updates) and applies it to the sink.

Modelling conventions:
* a sink cell is a `String` (boolean flags are rendered as the strings the
  sink displays, `"TRUE"` / `"FALSE"`);
* the grid is a list of rows, row `r` of the sheet (1-based) is index `r - 1`;
* column indices are 0-based: A = 0, B = 1, C (phone) = 2, D = 3,
  E (folder) = 4, F .. O (the ten document flags) = 5 .. 14, Z = 25;
* Python dicts that are built by insertion are modelled as association
  lists in insertion order.
-/

set_option autoImplicit false
set_option maxHeartbeats 1000000

namespace DocBot

/-- A sink cell. -/
abbrev Cell := String

/-- A sink row: the list of cell values of one sheet row. -/
abbrev Rowv := List Cell

/-- The sink grid: list of rows; sheet row `r` (1-based) is index `r - 1`. -/
abbrev Grid := List Rowv

/-- `DOC_TYPES` from `sync_to_sheets.py`: the ten tracked document types,
written to columns F .. O in this fixed order. -/
def DOC_TYPES : List String :=
  ["passport", "ecp", "registration", "family_income", "credit_contracts",
   "debt_certificates", "expenses", "bank_statements", "workbook", "story"]

/-- `FIRST_DATA_ROW = 2` from `sync_to_sheets.py`: row 1 is the header. -/
def FIRST_DATA_ROW : Nat := 2

/-! ## List utilities (padded indexing, used to model sheet cell access) -/

/-- `nth l i d`: the `i`-th element of `l`, or the default `d` past the end. -/
def nth {α : Type} (l : List α) (i : Nat) (d : α) : α :=
  match l, i with
  | [], _ => d
  | a :: _, 0 => a
  | _ :: t, n + 1 => nth t n d

/-- `setNth l i v d`: write `v` at index `i`, padding with `d` if `l` is
too short (the sink materializes missing cells as blanks). -/
def setNth {α : Type} (l : List α) (i : Nat) (v : α) (d : α) : List α :=
  match l, i with
  | [], 0 => [v]
  | [], n + 1 => d :: setNth [] n v d
  | _ :: t, 0 => v :: t
  | a :: t, n + 1 => a :: setNth t n v d

/-! ## Phone normalization (`normalize_phone`) -/

/-- The digit-string branch of `normalize_phone`:
`if digits.startswith('380'): return digits`;
`if digits.startswith('0'): return '38' + digits`;
`if len(digits) == 10: return '380' + digits`; `return digits`. -/
def normDigits (ds : List Char) : List Char :=
  if ds.take 3 = ['3', '8', '0'] then ds
  else if ds.take 1 = ['0'] then '3' :: '8' :: ds
  else if ds.length = 10 then '3' :: '8' :: '0' :: ds
  else ds

/-- `normalize_phone` from `sync_to_sheets.py`:
`if not phone: return ''`, strip non-digits, then the prefix cases. -/
def normalize_phone (phone : String) : String :=
  if phone = "" then ""
  else String.mk (normDigits (phone.data.filter Char.isDigit))

/-- The spec's own wording of the normalizer, §4.1 / §8 of the spec:
strip non-digits; keep a `380`-prefixed result unchanged; *replace* the
trunk `0` by the country code `380`; prepend `380` to a 10-digit result;
otherwise pass through.  Stated separately to compare with the code. -/
def normDigitsSpec (ds : List Char) : List Char :=
  if ds.take 3 = ['3', '8', '0'] then ds
  else if ds.take 1 = ['0'] then '3' :: '8' :: '0' :: ds.drop 1
  else if ds.length = 10 then '3' :: '8' :: '0' :: ds
  else ds

/-- The spec's normalizer on strings. -/
def normalizeSpec (phone : String) : String :=
  String.mk (normDigitsSpec (phone.data.filter Char.isDigit))

/-! ## Roster loading (step 2 of `sync_to_sheets`) -/

/-- One row of `Database.get_all_clients_with_documents`.  `created_at` is
the already-formatted registration date (`none` models SQL `NULL`);
`full_name`, `phone`, `drive_folder_url` use `""` for missing values, as
the Python code coerces them with `or ''` / truthiness tests. -/
structure ClientRecord where
  full_name : String
  phone : String
  telegram_id : Option Int
  created_at : Option String
  drive_folder_url : String
  document_types : List String
deriving DecidableEq

/-- One value of `clients_by_phone`: a merged logical roster entry. -/
structure RosterEntry where
  full_name : String
  telegram_id : Option Int
  created_at : Option String
  drive_folder_url : String
  doc_types : List String
deriving DecidableEq

/-- Python set union `s.update(t)` on document-type tags (membership is
what matters; duplicates in the list representation are harmless). -/
def setUnion (a b : List String) : List String :=
  a ++ b.filter (fun x => !(a.contains x))

/-- The entry created on first sight of a phone (step 2, `if phone_norm
not in clients_by_phone`). -/
def entryOf (c : ClientRecord) : RosterEntry :=
  { full_name := c.full_name, telegram_id := c.telegram_id,
    created_at := c.created_at, drive_folder_url := c.drive_folder_url,
    doc_types := c.document_types }

/-- The merge performed on a repeated phone (step 2, `else` branch):
union the document types; take the newcomer's folder only if the stored
one is empty and the newcomer's is not. -/
def mergeEntry (e : RosterEntry) (c : ClientRecord) : RosterEntry :=
  { e with
    doc_types := setUnion e.doc_types c.document_types,
    drive_folder_url :=
      if e.drive_folder_url = "" ∧ c.drive_folder_url ≠ "" then
        c.drive_folder_url
      else e.drive_folder_url }

/-- Insert one client into the insertion-ordered `clients_by_phone` map. -/
def addClient (acc : List (String × RosterEntry)) (pn : String)
    (c : ClientRecord) : List (String × RosterEntry) :=
  match acc with
  | [] => [(pn, entryOf c)]
  | (k, e) :: rest =>
    if k = pn then (k, mergeEntry e c) :: rest
    else (k, e) :: addClient rest pn c

/-- Step 2 of `sync_to_sheets`: group clients by normalized phone,
skipping records without a phone or whose normalization is empty. -/
def buildRoster (clients : List ClientRecord) : List (String × RosterEntry) :=
  clients.foldl
    (fun acc c =>
      if c.phone = "" then acc
      else
        let pn := normalize_phone c.phone
        if pn = "" then acc else addClient acc pn c)
    []

/-! ## Sink snapshot (`SheetsManager.get_existing_phones`) -/

/-- Python `str.strip()` on a cell value. -/
def pyStrip (s : String) : String :=
  String.mk
    (((s.data.dropWhile Char.isWhitespace).reverse.dropWhile
        Char.isWhitespace).reverse)

/-- The phone key contributed by the content of a phone cell:
`phone = value.strip()`, skip if empty, `norm = normalize_phone(phone)`,
skip if empty. -/
def keyOfCell (c : Cell) : Option String :=
  let phone := pyStrip c
  if phone = "" then none
  else
    let norm := normalize_phone phone
    if norm = "" then none else some norm

/-- Phone extraction from a full row, as in `get_existing_phones`:
`if row and len(row) > 2`, then the cell logic of `keyOfCell` on
`row[2]` (an empty cell is skipped by the truthiness test). -/
def extractPhone (row : Rowv) : Option String :=
  match row.get? 2 with
  | none => none
  | some c => if c = "" then none else keyOfCell c

/-- The snapshot result: normalized phone → 1-based row numbers, in
insertion (= ascending row) order, duplicates kept. -/
abbrev Groups := List (String × List Nat)

/-- `phones[norm].append(i + 1)` on an insertion-ordered dict of lists. -/
def addToGroups (gs : Groups) (k : String) (v : Nat) : Groups :=
  match gs with
  | [] => [(k, [v])]
  | (k', vs) :: rest =>
    if k' = k then (k', vs ++ [v]) :: rest
    else (k', vs) :: addToGroups rest k v

/-- The `enumerate` loop of `get_existing_phones`, index threaded. -/
def snapshotFold (acc : Groups) (i : Nat) : Grid → Groups
  | [] => acc
  | row :: rest =>
    if i < FIRST_DATA_ROW - 1 then snapshotFold acc (i + 1) rest
    else
      match extractPhone row with
      | some k => snapshotFold (addToGroups acc k (i + 1)) (i + 1) rest
      | none => snapshotFold acc (i + 1) rest

/-- `SheetsManager.get_existing_phones`: scan the grid (read range
`A:O`), keying each valid phone cell of the data rows to its 1-based row
number. -/
def get_existing_phones (g : Grid) : Groups := snapshotFold [] 0 g

/-- First-match lookup of the rows of a key (a Python dict has unique
keys; `addToGroups` updates the first match, so first-match lookup
agrees). -/
def rowsOf (gs : Groups) (k : String) : List Nat :=
  match gs with
  | [] => []
  | (k', vs) :: rest => if k' = k then vs else rowsOf rest k

/-- Analysis helper: the 1-based row numbers the snapshot scan assigns to
key `q`, scanning the rows of `g` with running 0-based index `i`. -/
def keyRowsFrom (q : String) : Grid → Nat → List Nat
  | [], _ => []
  | row :: rest, i =>
    (if 1 ≤ i ∧ extractPhone row = some q then [i + 1] else []) ++
      keyRowsFrom q rest (i + 1)

/-! ## The reconciliation plan (steps 4–5 of `sync_to_sheets`) -/

/-- One range write of the sink API, `{'range': ..., 'values': ...}`.
`startRow` is the 1-based sheet row and `startCol` the 0-based column of
the range's top-left corner; `values` is the written matrix. -/
structure UpdateRange where
  startRow : Nat
  startCol : Nat
  values : List (List Cell)
deriving DecidableEq

/-- A duplicate clear: range `'A{row}:Z{row}'`, values `[[''] * 26]`. -/
def clearRange (r : Nat) : UpdateRange := ⟨r, 0, [List.replicate 26 ""]⟩

/-- Step 4: every non-first row of every key becomes a clear, in dict
insertion order. -/
def duplicate_clears_of (eps : Groups) : List UpdateRange :=
  (eps.map (fun kr => kr.2.tail.map clearRange)).flatten

/-- Step 4: `last_row` starts at `FIRST_DATA_ROW - 1` and takes the max
over every discovered row. -/
def last_row_of (eps : Groups) : Nat :=
  eps.foldl (fun lr kr => kr.2.foldl (fun a r => max a r) lr)
    (FIRST_DATA_ROW - 1)

/-- Step 4: `normalized_existing[phone_norm] = rows[0]`. -/
def ne0_of (eps : Groups) : List (String × Nat) :=
  eps.map (fun kr => (kr.1, kr.2.headD 0))

/-- Python `dict.get(k)` combined with the code's truthiness test
`if existing_row:` — absent and `0` coincide (rows are always ≥ 2, so
`0` faithfully plays `None`). -/
def dictGet (m : List (String × Nat)) (k : String) : Nat :=
  match m with
  | [] => 0
  | (k', v) :: rest => if k' = k then v else dictGet rest k

/-- Boolean cell as rendered by the sink. -/
def boolCell (b : Bool) : Cell := if b then "TRUE" else "FALSE"

/-- The checkbox row `[doc in doc_types for doc in DOC_TYPES]`. -/
def checkboxes (e : RosterEntry) : List Cell :=
  DOC_TYPES.map (fun d => boolCell (e.doc_types.contains d))

/-- The three update ranges emitted for an existing row `r`:
`'C{r}'` (normalized phone), `'E{r}'` (folder), `'F{r}:O{r}'` (flags). -/
def updatesFor (pn : String) (e : RosterEntry) (r : Nat) : List UpdateRange :=
  [⟨r, 2, [[pn]]⟩,
   ⟨r, 4, [[e.drive_folder_url]]⟩,
   ⟨r, 5, [checkboxes e]⟩]

/-- The materialized new row (step 5, `else` branch): date, name,
normalized phone, telegram handle, folder, then the ten flags — columns
A .. O in order. -/
def materializeRow (today : String) (pn : String) (e : RosterEntry) : Rowv :=
  (e.created_at.getD today) ::
  e.full_name ::
  pn ::
  (match e.telegram_id with
   | some tid => if tid ≠ 0 then "tg://user?id=" ++ toString tid else ""
   | none => "") ::
  e.drive_folder_url ::
  checkboxes e

/-- Mutable state of the step-5 loop. -/
structure PlanState where
  ne : List (String × Nat)
  all_updates : List UpdateRange
  new_rows : List Rowv
deriving DecidableEq

/-- One iteration of the step-5 loop over `clients_by_phone`. -/
def planStep (today : String) (lastRow : Nat) (st : PlanState)
    (pe : String × RosterEntry) : PlanState :=
  let pn := pe.1
  let r := dictGet st.ne pn
  if r ≠ 0 then
    { st with all_updates := st.all_updates ++ updatesFor pn pe.2 r }
  else
    let nr := st.new_rows ++ [materializeRow today pn pe.2]
    { ne := st.ne ++ [(pn, lastRow + nr.length)],
      all_updates := st.all_updates,
      new_rows := nr }

/-- The full reconciliation plan of one cycle. -/
structure Plan where
  duplicate_clears : List UpdateRange
  last_row : Nat
  all_updates : List UpdateRange
  new_rows : List Rowv
deriving DecidableEq

/-- Steps 2–5 of `sync_to_sheets`: load the roster, snapshot the sink,
and compute the plan (`today` is the date used when `created_at` is
missing). -/
def makePlan (today : String) (clients : List ClientRecord) (g : Grid) :
    Plan :=
  let eps := get_existing_phones g
  let lr := last_row_of eps
  let st := (buildRoster clients).foldl (planStep today lr)
    ⟨ne0_of eps, [], []⟩
  ⟨duplicate_clears_of eps, lr, st.all_updates, st.new_rows⟩

/-- Analysis helper: the update ranges of the step-5 loop, expressed
per roster entry against the initial `normalized_existing` map (the
loop's later insertions never affect a lookup, because roster keys are
unique). -/
def rosterUpdates (ne0 : List (String × Nat))
    (roster : List (String × RosterEntry)) : List UpdateRange :=
  (roster.map (fun pe =>
    if dictGet ne0 pe.1 ≠ 0 then updatesFor pe.1 pe.2 (dictGet ne0 pe.1)
    else [])).flatten

/-- Analysis helper: the new rows of the step-5 loop, in roster order. -/
def rosterNewRows (today : String) (ne0 : List (String × Nat))
    (roster : List (String × RosterEntry)) : List Rowv :=
  (roster.filter (fun pe => dictGet ne0 pe.1 = 0)).map
    (fun pe => materializeRow today pe.1 pe.2)

/-- Analysis helper: the roster phones absent from the sink, in roster
processing order — these become the appended rows. -/
def missingKeys (ne0 : List (String × Nat))
    (roster : List (String × RosterEntry)) : List String :=
  (roster.filter (fun pe => dictGet ne0 pe.1 = 0)).map Prod.fst

/-! ## Written cells of a range -/

/-- A single written sink cell: 1-based row, 0-based column, value. -/
structure CellWrite where
  row : Nat
  col : Nat
  val : Cell
deriving DecidableEq

/-- Cells written by one row of a range, starting at column `c0`. -/
def rowCells (r : Nat) (c0 : Nat) : List Cell → List CellWrite
  | [] => []
  | v :: vs => ⟨r, c0, v⟩ :: rowCells r (c0 + 1) vs

/-- Cells written by a value matrix starting at row `r0`, column `c0`. -/
def rangeCells (r0 c0 : Nat) : List (List Cell) → List CellWrite
  | [] => []
  | row :: rows => rowCells r0 c0 row ++ rangeCells (r0 + 1) c0 rows

/-- All cells written by an `UpdateRange`. -/
def cellsOfRange (u : UpdateRange) : List CellWrite :=
  rangeCells u.startRow u.startCol u.values

/-- The cells written by the duplicate clears of a plan. -/
def clearCells (p : Plan) : List CellWrite :=
  (p.duplicate_clears.map cellsOfRange).flatten

/-- The cells written by the contiguous append block
`'A{last_row+1}:O{...}'` of a plan. -/
def appendCells (p : Plan) : List CellWrite :=
  cellsOfRange ⟨p.last_row + 1, 0, p.new_rows⟩

/-- The cells written by the updates of a plan. -/
def updateCells (p : Plan) : List CellWrite :=
  (p.all_updates.map cellsOfRange).flatten

/-- Every cell the cycle writes, in write order: duplicate clears, then
the contiguous append block, then updates. -/
def planCells (p : Plan) : List CellWrite :=
  clearCells p ++ appendCells p ++ updateCells p

/-! ## The batch writer (steps 6–9 of `sync_to_sheets`) -/

/-- One remote mutation issued by the writer. -/
inductive Event where
  | clearChunk (chunk : List UpdateRange)
  | grow (amount : Nat)
  | appendWrite (startRow : Nat) (rows : List Rowv)
  | updateChunk (chunk : List UpdateRange)
deriving DecidableEq

/-- Fuel-driven model of `for i in range(0, len(l), c): l[i:i+c]`. -/
def pyChunksAux {α : Type} (c : Nat) : Nat → List α → List (List α)
  | 0, _ => []
  | _ + 1, [] => []
  | fuel + 1, a :: t =>
    (a :: t).take c :: pyChunksAux c fuel ((a :: t).drop c)

/-- Python slicing into chunks of size `c`. -/
def pyChunks {α : Type} (c : Nat) (l : List α) : List (List α) :=
  pyChunksAux c l.length l

/-- Step 6: the duplicate clears, chunked by 100 (no call when empty). -/
def clearEvents (p : Plan) : List Event :=
  if p.duplicate_clears.isEmpty then []
  else (pyChunks 100 p.duplicate_clears).map Event.clearChunk

/-- Step 7, `ensure_rows`: grow by the deficit plus 50 iff
`last_row + len(new_rows)` exceeds the sheet's current row capacity. -/
def growEvents (p : Plan) (capacity : Nat) : List Event :=
  if capacity < p.last_row + p.new_rows.length then
    [Event.grow (p.last_row + p.new_rows.length - capacity + 50)]
  else []

/-- Step 8: the single contiguous append write (no call when empty). -/
def appendEvents (p : Plan) : List Event :=
  if p.new_rows.isEmpty then []
  else [Event.appendWrite (p.last_row + 1) p.new_rows]

/-- Step 9: the updates, chunked by 100 (no call when empty). -/
def updateEvents (p : Plan) : List Event :=
  if p.all_updates.isEmpty then []
  else (pyChunks 100 p.all_updates).map Event.updateChunk

/-- Steps 6–9 of `sync_to_sheets` as the ordered list of remote
mutations. -/
def writerTrace (p : Plan) (capacity : Nat) : List Event :=
  clearEvents p ++ growEvents p capacity ++ appendEvents p ++
    updateEvents p

/-- Event kind: a duplicate-clear batch. -/
def isClear : Event → Bool
  | .clearChunk _ => true
  | _ => false

/-- Event kind: a capacity grow. -/
def isGrow : Event → Bool
  | .grow _ => true
  | _ => false

/-- Event kind: the contiguous append write. -/
def isAppend : Event → Bool
  | .appendWrite _ _ => true
  | _ => false

/-- Event kind: an update batch. -/
def isUpdate : Event → Bool
  | .updateChunk _ => true
  | _ => false

/-- Total capacity growth issued strictly before position `j` of a
trace. -/
def growthBefore (trace : List Event) (j : Nat) : Nat :=
  ((trace.take j).map
    (fun e => match e with | .grow n => n | _ => 0)).sum

/-! ## Applying writes to the grid -/

/-- Write one cell (1-based row `r`, 0-based column `c`), padding the
grid and the row as the sink does. -/
def setCell (g : Grid) (r c : Nat) (v : Cell) : Grid :=
  setNth g (r - 1) (setNth (nth g (r - 1) []) c v "") []

/-- Read one cell; missing rows/cells read as the empty string, as a
spreadsheet serves blanks for unset cells. -/
def cellAt (g : Grid) (r c : Nat) : Cell := nth (nth g (r - 1) []) c ""

/-- Apply a list of cell writes in order (later writes win). -/
def applyCells (g : Grid) (ws : List CellWrite) : Grid :=
  ws.foldl (fun g w => setCell g w.row w.col w.val) g

/-- Apply one range write. -/
def applyRange (g : Grid) (u : UpdateRange) : Grid :=
  applyCells g (cellsOfRange u)

/-- Apply one remote mutation to the grid (`grow` appends blank rows). -/
def applyEvent (g : Grid) : Event → Grid
  | .clearChunk ch => ch.foldl applyRange g
  | .grow n => g ++ List.replicate n ([] : Rowv)
  | .appendWrite s rows => applyRange g ⟨s, 0, rows⟩
  | .updateChunk ch => ch.foldl applyRange g

/-- The cells an event writes (a grow writes none). -/
def cellsOfEvent : Event → List CellWrite
  | .clearChunk ch => (ch.map cellsOfRange).flatten
  | .grow _ => []
  | .appendWrite s rows => cellsOfRange ⟨s, 0, rows⟩
  | .updateChunk ch => (ch.map cellsOfRange).flatten

/-- One full reconciliation cycle: compute the plan from the grid and
apply the writer's mutations to it. -/
def runCycle (today : String) (clients : List ClientRecord) (g : Grid)
    (cap : Nat) : Grid :=
  (writerTrace (makePlan today clients g) cap).foldl applyEvent g

/-- The normalized phone key the snapshot would read at sheet row `r`. -/
def keyAt (g : Grid) (r : Nat) : Option String := keyOfCell (cellAt g r 2)

/-! ## Concrete instances used as witnesses and counterexamples -/

/-- A store record with document tags `{a, b}` and no folder. -/
def cw1 : ClientRecord :=
  ⟨"Ivan Petrenko", "0501234567", none, some "01.02.2024", "", ["a", "b"]⟩

/-- A store record with the same phone in another format, tags `{b, c}`,
and a folder. -/
def cw2 : ClientRecord :=
  ⟨"I. Petrenko", "+380501234567", some 7, none,
   "https://drive.example/f1", ["b", "c"]⟩

/-- A store record whose phone is new to the example sink. -/
def cw3 : ClientRecord :=
  ⟨"Olha K", "0671112233", some 9, some "03.04.2024", "", ["passport"]⟩

/-- An example sink: header row, then the same phone key
`380501234567` in two formats at rows 2 and 3 (a duplicate pair), with
row 3 carrying data in column P (index 15), outside the A .. O schema. -/
def gEx : Grid :=
  [["Date", "Name", "Phone"],
   ["01.01.2024", "Ivan", "0501234567", "", "", "", "", "", "", "", "",
    "", "", "", "", ""],
   ["02.01.2024", "Ivan P", "+38 (050) 123-45-67", "", "", "", "", "",
    "", "", "", "", "", "", "", "manual note"]]

/-! ## Lemmas: padded indexing -/

theorem nth_setNth_self {α : Type} (l : List α) (i : Nat) (v d : α) :
    nth (setNth l i v d) i d = v := by
  induction i generalizing l with
  | zero => cases l <;> rfl
  | succ n ih => cases l with
    | nil => exact ih []
    | cons a t => exact ih t

theorem nth_setNth_ne {α : Type} (l : List α) {i j : Nat} (hij : i ≠ j)
    (v d : α) : nth (setNth l i v d) j d = nth l j d := by
  induction i generalizing l j with
  | zero =>
    cases l with
    | nil =>
      cases j with
      | zero => exact absurd rfl hij
      | succ m => rfl
    | cons a t =>
      cases j with
      | zero => exact absurd rfl hij
      | succ m => rfl
  | succ n ih =>
    cases l with
    | nil =>
      cases j with
      | zero => rfl
      | succ m =>
        have hnm : n ≠ m := fun h => hij (by rw [h])
        show nth (setNth [] n v d) m d = nth ([] : List α) (m + 1) d
        rw [ih [] hnm]
        cases m <;> rfl
    | cons a t =>
      cases j with
      | zero => rfl
      | succ m =>
        have hnm : n ≠ m := fun h => hij (by rw [h])
        exact ih t hnm

theorem nth_ge {α : Type} (l : List α) (i : Nat) (d : α)
    (h : l.length ≤ i) : nth l i d = d := by
  induction l generalizing i with
  | nil => cases i <;> rfl
  | cons a t ih =>
    cases i with
    | zero => simp at h
    | succ n => exact ih n (by simpa using h)

/-! ## Lemmas: chunking -/

theorem pyChunksAux_flatten {α : Type} (c : Nat) (hc : 1 ≤ c) :
    ∀ fuel (l : List α), l.length ≤ fuel →
      (pyChunksAux c fuel l).flatten = l := by
  intro fuel
  induction fuel with
  | zero =>
    intro l hl
    have : l = [] := List.eq_nil_of_length_eq_zero (Nat.le_zero.mp hl)
    subst this
    rfl
  | succ n ih =>
    intro l hl
    cases l with
    | nil => rfl
    | cons a t =>
      show ((a :: t).take c :: pyChunksAux c n ((a :: t).drop c)).flatten
        = a :: t
      simp only [List.length_cons] at hl
      have hlen : ((a :: t).drop c).length ≤ n := by
        simp only [List.length_drop, List.length_cons]
        omega
      rw [List.flatten_cons, ih ((a :: t).drop c) hlen,
        List.take_append_drop]

theorem pyChunks_flatten {α : Type} (c : Nat) (hc : 1 ≤ c) (l : List α) :
    (pyChunks c l).flatten = l :=
  pyChunksAux_flatten c hc l.length l le_rfl

/-! ## Lemmas: the phone normalizer -/

theorem take_one_eq_cons {ds : List Char} (h : ds.take 1 = ['0']) :
    ds = '0' :: ds.drop 1 := by
  cases ds with
  | nil => simp at h
  | cons a t => simp_all

theorem normDigits_eq_spec (ds : List Char) :
    normDigits ds = normDigitsSpec ds := by
  unfold normDigits normDigitsSpec
  by_cases h3 : ds.take 3 = ['3', '8', '0']
  · simp [h3]
  by_cases h0 : ds.take 1 = ['0']
  · simp only [h3, h0, if_false, if_true, if_neg, if_pos, ite_true,
      ite_false]
    conv_lhs => rw [take_one_eq_cons h0]
  · simp [h3, h0]

theorem digit_mem_normDigits {ds : List Char}
    (h : ∀ c ∈ ds, c.isDigit = true) :
    ∀ c ∈ normDigits ds, c.isDigit = true := by
  intro c hc
  unfold normDigits at hc
  by_cases h3 : ds.take 3 = ['3', '8', '0']
  · exact h c (by simpa [h3] using hc)
  by_cases h0 : ds.take 1 = ['0']
  · simp only [h3, h0, if_true, if_false, ite_true, ite_false, if_neg,
      if_pos, List.mem_cons] at hc
    rcases hc with rfl | rfl | hc
    · decide
    · decide
    · exact h c hc
  by_cases hl : ds.length = 10
  · simp only [h3, h0, hl, if_true, if_false, ite_true, ite_false,
      List.mem_cons] at hc
    rcases hc with rfl | rfl | rfl | hc
    · decide
    · decide
    · decide
    · exact h c hc
  · exact h c (by simpa [h3, h0, hl] using hc)

theorem normDigits_idem (ds : List Char) :
    normDigits (normDigits ds) = normDigits ds := by
  by_cases h3 : ds.take 3 = ['3', '8', '0']
  · simp [normDigits, h3]
  by_cases h0 : ds.take 1 = ['0']
  · have h38 : normDigits ds = '3' :: '8' :: ds := by
      simp [normDigits, h3, h0]
    rw [h38]
    have : ('3' :: '8' :: ds).take 3 = ['3', '8', '0'] := by
      rw [take_one_eq_cons h0]
      rfl
    simp [normDigits, this]
  by_cases hl : ds.length = 10
  · have h380 : normDigits ds = '3' :: '8' :: '0' :: ds := by
      simp [normDigits, h3, h0, hl]
    rw [h380]
    simp [normDigits]
  · have hid : normDigits ds = ds := by simp [normDigits, h3, h0, hl]
    rw [hid, hid]

theorem filter_eq_self_of_all {l : List Char}
    (h : ∀ c ∈ l, c.isDigit = true) : l.filter Char.isDigit = l := by
  induction l with
  | nil => rfl
  | cons a t ih =>
    rw [List.filter_cons_of_pos (h a (List.mem_cons_self a t)),
      ih (fun c hc => h c (List.mem_cons_of_mem a hc))]

theorem mem_filter_digit {l : List Char} :
    ∀ c ∈ l.filter Char.isDigit, c.isDigit = true := by
  intro c hc
  exact (List.mem_filter.mp hc).2

/-- Every character of a `normalize_phone` result is a digit. -/
theorem normalize_phone_digits (s : String) :
    ∀ c ∈ (normalize_phone s).data, c.isDigit = true := by
  unfold normalize_phone
  by_cases hs : s = ""
  · simp [hs]
  · rw [if_neg hs]
    exact digit_mem_normDigits mem_filter_digit

theorem digit_not_ws {c : Char} (h : c.isDigit = true) :
    c.isWhitespace = false := by
  by_contra hne
  rw [Bool.not_eq_false] at hne
  simp only [Char.isWhitespace, Bool.or_eq_true, decide_eq_true_eq] at hne
  rcases hne with ((rfl | rfl) | rfl) | rfl <;> exact absurd h (by decide)

theorem dropWhile_eq_self_of_not {p : Char → Bool} {l : List Char}
    (h : ∀ c ∈ l, p c = false) : l.dropWhile p = l := by
  cases l with
  | nil => rfl
  | cons a t =>
    rw [List.dropWhile_cons]
    simp [h a (List.mem_cons_self a t)]

theorem pyStrip_of_digits {s : String}
    (h : ∀ c ∈ s.data, c.isDigit = true) : pyStrip s = s := by
  have h1 : ∀ c ∈ s.data, c.isWhitespace = false :=
    fun c hc => digit_not_ws (h c hc)
  unfold pyStrip
  rw [dropWhile_eq_self_of_not h1,
    dropWhile_eq_self_of_not
      (fun c hc => h1 c (List.mem_reverse.mp hc)),
    List.reverse_reverse]

/-- Idempotence of the normalizer (helper form, used throughout). -/
theorem normalize_idem (x : String) :
    normalize_phone (normalize_phone x) = normalize_phone x := by
  by_cases hx : x = ""
  · rw [hx]
    decide
  · have hy : normalize_phone x
        = String.mk (normDigits (x.data.filter Char.isDigit)) := by
      rw [normalize_phone, if_neg hx]
    by_cases hz : normalize_phone x = ""
    · rw [hz]
      decide
    · rw [hy]
      unfold normalize_phone
      rw [if_neg (hy ▸ hz)]
      show String.mk
          (normDigits
            ((normDigits (x.data.filter Char.isDigit)).filter
              Char.isDigit)) = _
      rw [filter_eq_self_of_all (digit_mem_normDigits mem_filter_digit),
        normDigits_idem]

theorem nth_eq_getD {α : Type} (l : List α) (i : Nat) (d : α) :
    nth l i d = (l.get? i).getD d := by
  induction l generalizing i with
  | nil => cases i <;> rfl
  | cons a t ih => cases i with
    | zero => rfl
    | succ n => exact ih n

@[simp] theorem keyOfCell_empty : keyOfCell "" = none := rfl

/-- The row-level phone extraction is the cell-level one on `row[2]`
(missing and empty cells coincide: both are skipped). -/
theorem extractPhone_eq (row : Rowv) :
    extractPhone row = keyOfCell (nth row 2 "") := by
  unfold extractPhone
  rw [nth_eq_getD]
  cases h : row.get? 2 with
  | none => rfl
  | some c =>
    by_cases hc : c = ""
    · rw [hc]
      rfl
    · simp [hc]

/-- A nonempty all-digit string that the normalizer fixes is read back
as exactly itself by the snapshot's cell logic. -/
theorem keyOfCell_normalized {pn : String} (hpn : pn ≠ "")
    (hfix : normalize_phone pn = pn)
    (hdig : ∀ c ∈ pn.data, c.isDigit = true) :
    keyOfCell pn = some pn := by
  simp only [keyOfCell]
  rw [pyStrip_of_digits hdig]
  simp [hpn, hfix]

/-! ## Claims C5 and C6: the phone normalizer -/

/-- **C5.** For every input string, `normalize_phone` strips every
non-digit character and then: a `380`-prefixed result is returned
unchanged; else a `0`-prefixed result has the country code replace the
trunk digit; else a 10-digit result gets the country code prepended;
otherwise the stripped digits pass through — with the four spec
examples, including the 10-digit fallback on `"1234567890"`. -/
theorem C5_normalizer_matches_spec :
    (∀ s : String, normalize_phone s = normalizeSpec s) ∧
    normalize_phone "0501234567" = "380501234567" ∧
    normalize_phone "+380501234567" = "380501234567" ∧
    normalize_phone "380501234567" = "380501234567" ∧
    normalize_phone "1234567890" = "3801234567890" := by
  refine ⟨fun s => ?_, by decide, by decide, by decide, by decide⟩
  by_cases hs : s = ""
  · rw [hs]
    rfl
  · rw [normalize_phone, if_neg hs]
    exact congrArg String.mk (normDigits_eq_spec _)

/-- **C6.** Phone normalization is idempotent:
`normalize_phone (normalize_phone x) = normalize_phone x` for every
input string `x`. -/
theorem C6_normalize_idempotent :
    ∀ x : String, normalize_phone (normalize_phone x) = normalize_phone x :=
  fun x => normalize_idem x

/-! ## Lemmas: the snapshot index -/

theorem rowsOf_addToGroups (gs : Groups) (k v q) :
    rowsOf (addToGroups gs k v) q =
      if q = k then rowsOf gs q ++ [v] else rowsOf gs q := by
  induction gs with
  | nil =>
    simp only [addToGroups, rowsOf]
    by_cases hq : q = k
    · simp [hq]
    · have hq' : ¬ k = q := fun h => hq h.symm
      simp [hq, hq']
  | cons e rest ih =>
    obtain ⟨k', vs⟩ := e
    simp only [addToGroups]
    by_cases hk : k' = k
    · simp only [if_pos hk]
      by_cases hq : q = k
      · have h1 : k' = q := by rw [hk, hq]
        simp [rowsOf, h1, hq]
      · have h1 : ¬ k' = q := by
          rw [hk]
          exact fun h => hq h.symm
        simp [rowsOf, h1, hq]
    · simp only [if_neg hk]
      by_cases h1 : k' = q
      · have hq : ¬ q = k := by
          rw [← h1]
          exact fun h => hk h
        simp [rowsOf, h1, hq]
      · simp [rowsOf, h1, ih]

theorem rowsOf_snapshotFold (g : Grid) :
    ∀ (acc : Groups) (i : Nat) (q : String),
      rowsOf (snapshotFold acc i g) q = rowsOf acc q ++ keyRowsFrom q g i := by
  induction g with
  | nil => intro acc i q; simp [snapshotFold, keyRowsFrom]
  | cons row rest ih =>
    intro acc i q
    show rowsOf (snapshotFold acc i (row :: rest)) q = _
    unfold snapshotFold
    by_cases hi : i < FIRST_DATA_ROW - 1
    · have h1 : ¬ 1 ≤ i := by
        simp [FIRST_DATA_ROW] at hi
        omega
      rw [if_pos hi, ih]
      simp [keyRowsFrom, h1]
    · have h1 : 1 ≤ i := by
        simp [FIRST_DATA_ROW] at hi
        omega
      rw [if_neg hi]
      cases hx : extractPhone row with
      | some k =>
        rw [ih, rowsOf_addToGroups]
        by_cases hq : q = k
        · subst hq
          simp [keyRowsFrom, h1, hx]
        · have : ¬ (1 ≤ i ∧ extractPhone row = some q) := by
            rintro ⟨-, h⟩
            rw [hx] at h
            exact hq (Option.some.inj h).symm
          simp [keyRowsFrom, this, hq]
      | none =>
        rw [ih]
        have : ¬ (1 ≤ i ∧ extractPhone row = some q) := by
          rintro ⟨-, h⟩
          rw [hx] at h
          exact Option.noConfusion h
        simp [keyRowsFrom, this]

theorem rowsOf_get_existing (g : Grid) (q : String) :
    rowsOf (get_existing_phones g) q = keyRowsFrom q g 0 := by
  rw [get_existing_phones, rowsOf_snapshotFold]
  rfl

theorem mem_keyRowsFrom {q : String} {g : Grid} :
    ∀ {i r : Nat}, r ∈ keyRowsFrom q g i ↔
      ∃ j, j < g.length ∧ r = i + j + 1 ∧ 1 ≤ i + j ∧
        extractPhone (nth g j []) = some q := by
  induction g with
  | nil => simp [keyRowsFrom]
  | cons row rest ih =>
    intro i r
    constructor
    · intro hr
      rw [keyRowsFrom, List.mem_append] at hr
      rcases hr with hr | hr
      · by_cases hc : 1 ≤ i ∧ extractPhone row = some q
        · rw [if_pos hc] at hr
          refine ⟨0, by simp, by simpa using hr, by omega, hc.2⟩
        · rw [if_neg hc] at hr
          simp at hr
      · obtain ⟨j, hj, hrj, hij, hx⟩ := ih.mp hr
        exact ⟨j + 1, by simpa using hj, by omega, by omega, hx⟩
    · rintro ⟨j, hj, rfl, hij, hx⟩
      rw [keyRowsFrom, List.mem_append]
      cases j with
      | zero =>
        left
        have : 1 ≤ i ∧ extractPhone row = some q := ⟨by omega, hx⟩
        rw [if_pos this]
        simp
      | succ m =>
        right
        exact ih.mpr ⟨m, by simpa using hj, by omega, by omega, hx⟩

theorem keyRowsFrom_lb {q : String} {g : Grid} {i r : Nat}
    (h : r ∈ keyRowsFrom q g i) : i + 1 ≤ r := by
  obtain ⟨j, -, rfl, hij, -⟩ := mem_keyRowsFrom.mp h
  omega

theorem keyRowsFrom_pairwise (q : String) (g : Grid) :
    ∀ i, (keyRowsFrom q g i).Pairwise (· < ·) := by
  induction g with
  | nil => intro i; simp [keyRowsFrom]
  | cons row rest ih =>
    intro i
    rw [keyRowsFrom]
    by_cases hc : 1 ≤ i ∧ extractPhone row = some q
    · rw [if_pos hc]
      refine List.Pairwise.cons ?_ (ih (i + 1))
      intro r hr
      have := keyRowsFrom_lb hr
      omega
    · rw [if_neg hc]
      simpa using ih (i + 1)

/-- Central snapshot characterization: row `r` is recorded for key `q`
iff `r` is a data row whose phone cell reads back as `q`. -/
theorem mem_rowsOf_iff {g : Grid} {q : String} {r : Nat} :
    r ∈ rowsOf (get_existing_phones g) q ↔ 2 ≤ r ∧ keyAt g r = some q := by
  rw [rowsOf_get_existing]
  constructor
  · intro h
    obtain ⟨j, hj, rfl, hij, hx⟩ := mem_keyRowsFrom.mp h
    refine ⟨by omega, ?_⟩
    rw [keyAt, cellAt]
    have : 0 + j + 1 - 1 = j := by omega
    rw [this]
    rw [extractPhone_eq] at hx
    exact hx
  · rintro ⟨h2, hk⟩
    have hlen : r - 1 < g.length := by
      by_contra hge
      have : nth g (r - 1) [] = [] := nth_ge _ _ _ (by omega)
      rw [keyAt, cellAt, this] at hk
      exact Option.noConfusion hk
    refine mem_keyRowsFrom.mpr ⟨r - 1, hlen, by omega, by omega, ?_⟩
    rw [extractPhone_eq]
    rw [keyAt, cellAt] at hk
    exact hk

theorem rowsOf_pairwise (g : Grid) (q : String) :
    (rowsOf (get_existing_phones g) q).Pairwise (· < ·) := by
  rw [rowsOf_get_existing]
  exact keyRowsFrom_pairwise q g 0

theorem rowsOf_ge_two {g : Grid} {q : String} {r : Nat}
    (h : r ∈ rowsOf (get_existing_phones g) q) : 2 ≤ r :=
  (mem_rowsOf_iff.mp h).1

/-! ## Lemmas: snapshot entries, keys, last row -/

theorem mem_keys_addToGroups {gs : Groups} {k : String} {v : Nat}
    {q : String} (h : q ∈ (addToGroups gs k v).map Prod.fst) :
    q ∈ gs.map Prod.fst ∨ q = k := by
  induction gs with
  | nil =>
    simp [addToGroups] at h
    exact Or.inr h
  | cons e rest ih =>
    obtain ⟨k', vs⟩ := e
    by_cases hk : k' = k
    · simp only [addToGroups, if_pos hk] at h
      simp at h ⊢
      tauto
    · simp only [addToGroups, if_neg hk] at h
      simp at h ⊢
      rcases h with h | h
      · tauto
      · rcases ih (by simpa using h) with h2 | h2
        · simp at h2
          tauto
        · tauto

theorem nodup_keys_addToGroups {gs : Groups} (k : String) (v : Nat)
    (h : (gs.map Prod.fst).Nodup) :
    ((addToGroups gs k v).map Prod.fst).Nodup := by
  induction gs with
  | nil => simp [addToGroups]
  | cons e rest ih =>
    obtain ⟨k', vs⟩ := e
    simp only [List.map_cons, List.nodup_cons] at h
    by_cases hk : k' = k
    · simp only [addToGroups, if_pos hk, List.map_cons, List.nodup_cons]
      exact h
    · simp only [addToGroups, if_neg hk, List.map_cons, List.nodup_cons]
      refine ⟨?_, ih h.2⟩
      intro hmem
      rcases mem_keys_addToGroups hmem with h2 | h2
      · exact h.1 h2
      · exact hk h2

theorem entries_nonnil_addToGroups {gs : Groups} (k : String) (v : Nat)
    (h : ∀ e ∈ gs, e.2 ≠ ([] : List Nat)) :
    ∀ e ∈ addToGroups gs k v, e.2 ≠ ([] : List Nat) := by
  induction gs with
  | nil =>
    intro e he
    simp [addToGroups] at he
    subst he
    simp
  | cons e0 rest ih =>
    obtain ⟨k', vs⟩ := e0
    intro e he
    by_cases hk : k' = k
    · simp only [addToGroups, if_pos hk] at he
      rcases List.mem_cons.mp he with rfl | hmem
      · simp
      · exact h e (List.mem_cons_of_mem _ hmem)
    · simp only [addToGroups, if_neg hk] at he
      rcases List.mem_cons.mp he with rfl | hmem
      · exact h _ (List.mem_cons_self _ _)
      · exact ih (fun e' he' => h e' (List.mem_cons_of_mem _ he')) e hmem

theorem nodup_keys_snapshotFold (g : Grid) :
    ∀ (acc : Groups) (i : Nat), (acc.map Prod.fst).Nodup →
      ((snapshotFold acc i g).map Prod.fst).Nodup := by
  induction g with
  | nil => intro acc i h; exact h
  | cons row rest ih =>
    intro acc i h
    unfold snapshotFold
    by_cases hi : i < FIRST_DATA_ROW - 1
    · rw [if_pos hi]
      exact ih acc (i + 1) h
    · rw [if_neg hi]
      cases hx : extractPhone row with
      | some k => exact ih _ (i + 1) (nodup_keys_addToGroups k (i + 1) h)
      | none => exact ih acc (i + 1) h

theorem nodup_keys_get_existing (g : Grid) :
    (((get_existing_phones g)).map Prod.fst).Nodup :=
  nodup_keys_snapshotFold g [] 0 (by simp)

theorem entries_nonnil_snapshotFold (g : Grid) :
    ∀ (acc : Groups) (i : Nat),
      (∀ e ∈ acc, e.2 ≠ ([] : List Nat)) →
      ∀ e ∈ snapshotFold acc i g, e.2 ≠ ([] : List Nat) := by
  induction g with
  | nil => intro acc i h; exact h
  | cons row rest ih =>
    intro acc i h
    unfold snapshotFold
    by_cases hi : i < FIRST_DATA_ROW - 1
    · rw [if_pos hi]
      exact ih acc (i + 1) h
    · rw [if_neg hi]
      cases hx : extractPhone row with
      | some k => exact ih _ (i + 1) (entries_nonnil_addToGroups k (i + 1) h)
      | none => exact ih acc (i + 1) h

theorem entries_nonnil_get_existing (g : Grid) :
    ∀ e ∈ get_existing_phones g, e.2 ≠ ([] : List Nat) :=
  entries_nonnil_snapshotFold g [] 0 (by simp)

theorem rowsOf_entry {gs : Groups} {k : String} {rs : List Nat}
    (hnd : (gs.map Prod.fst).Nodup) (h : (k, rs) ∈ gs) :
    rowsOf gs k = rs := by
  induction gs with
  | nil => simp at h
  | cons e rest ih =>
    obtain ⟨k', vs⟩ := e
    simp only [List.map_cons, List.nodup_cons] at hnd
    rcases List.mem_cons.mp h with heq | hmem
    · obtain ⟨rfl, rfl⟩ := Prod.mk.injEq .. ▸ heq
      simp [rowsOf]
    · have hk : ¬ k' = k := by
        intro hk
        subst hk
        exact hnd.1 (List.mem_map_of_mem Prod.fst hmem)
      simp only [rowsOf, if_neg hk]
      exact ih hnd.2 hmem

theorem entry_of_rowsOf_ne {gs : Groups} {k : String}
    (h : rowsOf gs k ≠ []) : (k, rowsOf gs k) ∈ gs := by
  induction gs with
  | nil => exact absurd rfl h
  | cons e rest ih =>
    obtain ⟨k', vs⟩ := e
    by_cases hk : k' = k
    · subst hk
      simp only [rowsOf, if_pos rfl] at h ⊢
      simp [rowsOf]
    · simp only [rowsOf, if_neg hk] at h ⊢
      exact List.mem_cons_of_mem _ (ih h)

theorem foldl_max_init (l : List Nat) (a : Nat) :
    a ≤ l.foldl (fun x r => max x r) a := by
  induction l generalizing a with
  | nil => exact le_rfl
  | cons b t ih => exact le_trans (Nat.le_max_left a b) (ih (max a b))

theorem foldl_max_mem {l : List Nat} {x : Nat} (h : x ∈ l) (a : Nat) :
    x ≤ l.foldl (fun x r => max x r) a := by
  induction l generalizing a with
  | nil => simp at h
  | cons b t ih =>
    rcases List.mem_cons.mp h with rfl | hmem
    · exact le_trans (Nat.le_max_right a x) (foldl_max_init t _)
    · exact ih hmem _

theorem nested_foldl_init (eps : Groups) (a : Nat) :
    a ≤ eps.foldl (fun lr kr => kr.2.foldl (fun x r => max x r) lr) a := by
  induction eps generalizing a with
  | nil => exact le_rfl
  | cons e rest ih =>
    exact le_trans (foldl_max_init e.2 a) (ih _)

theorem last_row_of_ge_one (eps : Groups) : 1 ≤ last_row_of eps :=
  nested_foldl_init eps (FIRST_DATA_ROW - 1)

theorem le_last_row_of_entry {eps : Groups} {k : String} {rs : List Nat}
    {r : Nat} (he : (k, rs) ∈ eps) (hr : r ∈ rs) : r ≤ last_row_of eps := by
  rw [last_row_of]
  generalize FIRST_DATA_ROW - 1 = a
  induction eps generalizing a with
  | nil => simp at he
  | cons e rest ih =>
    rcases List.mem_cons.mp he with rfl | hmem
    · exact le_trans (foldl_max_mem hr a) (nested_foldl_init rest _)
    · exact ih hmem _

theorem le_last_row_of {g : Grid} {q : String} {r : Nat}
    (h : r ∈ rowsOf (get_existing_phones g) q) :
    r ≤ last_row_of (get_existing_phones g) := by
  have hne : rowsOf (get_existing_phones g) q ≠ [] := by
    intro hnil
    rw [hnil] at h
    simp at h
  exact le_last_row_of_entry (entry_of_rowsOf_ne hne) h

/-! ## Lemmas: `normalized_existing` and `dictGet` -/

theorem dictGet_ne0 (eps : Groups) (k : String) :
    dictGet (ne0_of eps) k = (rowsOf eps k).headD 0 := by
  induction eps with
  | nil => rfl
  | cons e rest ih =>
    obtain ⟨k', vs⟩ := e
    by_cases hk : k' = k
    · simp [ne0_of, dictGet, rowsOf, hk]
    · simp only [ne0_of, List.map_cons, dictGet, rowsOf, if_neg hk]
      exact ih

theorem dictGet_zero_of_not_mem {m : List (String × Nat)} {k : String}
    (h : k ∉ m.map Prod.fst) : dictGet m k = 0 := by
  induction m with
  | nil => rfl
  | cons e rest ih =>
    obtain ⟨k', v⟩ := e
    simp only [List.map_cons, List.mem_cons] at h
    push_neg at h
    simp only [dictGet, if_neg (fun hh : k' = k => h.1 hh.symm)]
    exact ih h.2

theorem dictGet_append_not_mem {m ext : List (String × Nat)} {k : String}
    (h : k ∉ ext.map Prod.fst) : dictGet (m ++ ext) k = dictGet m k := by
  induction m with
  | nil => exact dictGet_zero_of_not_mem h
  | cons e rest ih =>
    obtain ⟨k', v⟩ := e
    by_cases hk : k' = k
    · simp [dictGet, hk]
    · simp only [List.cons_append, dictGet, if_neg hk]
      exact ih

/-! ## Lemmas: the roster -/

theorem mem_keys_addClient {acc : List (String × RosterEntry)}
    {pn : String} {c : ClientRecord} {q : String}
    (h : q ∈ (addClient acc pn c).map Prod.fst) :
    q ∈ acc.map Prod.fst ∨ q = pn := by
  induction acc with
  | nil =>
    simp [addClient] at h
    exact Or.inr h
  | cons e rest ih =>
    obtain ⟨k, v⟩ := e
    by_cases hk : k = pn
    · simp only [addClient, if_pos hk] at h
      simp at h ⊢
      tauto
    · simp only [addClient, if_neg hk] at h
      simp at h ⊢
      rcases h with h | h
      · tauto
      · rcases ih (by simpa using h) with h2 | h2
        · simp at h2
          tauto
        · tauto

theorem nodup_keys_addClient {acc : List (String × RosterEntry)}
    (pn : String) (c : ClientRecord) (h : (acc.map Prod.fst).Nodup) :
    ((addClient acc pn c).map Prod.fst).Nodup := by
  induction acc with
  | nil => simp [addClient]
  | cons e rest ih =>
    obtain ⟨k, v⟩ := e
    simp only [List.map_cons, List.nodup_cons] at h
    by_cases hk : k = pn
    · simp only [addClient, if_pos hk, List.map_cons, List.nodup_cons]
      exact h
    · simp only [addClient, if_neg hk, List.map_cons, List.nodup_cons]
      refine ⟨?_, ih h.2⟩
      intro hmem
      rcases mem_keys_addClient hmem with h2 | h2
      · exact h.1 h2
      · exact hk h2

theorem nodup_keys_buildRoster (clients : List ClientRecord) :
    ((buildRoster clients).map Prod.fst).Nodup := by
  rw [buildRoster]
  suffices h : ∀ (acc : List (String × RosterEntry)),
      (acc.map Prod.fst).Nodup →
      ((clients.foldl
        (fun acc c =>
          if c.phone = "" then acc
          else
            let pn := normalize_phone c.phone
            if pn = "" then acc else addClient acc pn c) acc).map
          Prod.fst).Nodup by
    exact h [] (by simp)
  induction clients with
  | nil => intro acc h; exact h
  | cons c rest ih =>
    intro acc h
    simp only [List.foldl_cons]
    by_cases hp : c.phone = ""
    · rw [if_pos hp]
      exact ih acc h
    · rw [if_neg hp]
      by_cases hn : normalize_phone c.phone = ""
      · simp only [hn, if_pos]
        exact ih acc h
      · simp only [if_neg hn]
        exact ih _ (nodup_keys_addClient _ c h)

/-- Every roster key is a nonempty all-digit fixed point of the
normalizer. -/
theorem buildRoster_keys_good (clients : List ClientRecord) :
    ∀ pe ∈ buildRoster clients,
      pe.1 ≠ "" ∧ normalize_phone pe.1 = pe.1 ∧
        ∀ ch ∈ pe.1.data, ch.isDigit = true := by
  rw [buildRoster]
  suffices h : ∀ (acc : List (String × RosterEntry)),
      (∀ pe ∈ acc, pe.1 ≠ "" ∧ normalize_phone pe.1 = pe.1 ∧
        ∀ ch ∈ pe.1.data, ch.isDigit = true) →
      ∀ pe ∈ clients.foldl
        (fun acc c =>
          if c.phone = "" then acc
          else
            let pn := normalize_phone c.phone
            if pn = "" then acc else addClient acc pn c) acc,
        pe.1 ≠ "" ∧ normalize_phone pe.1 = pe.1 ∧
          ∀ ch ∈ pe.1.data, ch.isDigit = true by
    exact h [] (by simp)
  induction clients with
  | nil => intro acc h; exact h
  | cons c rest ih =>
    intro acc h
    simp only [List.foldl_cons]
    by_cases hp : c.phone = ""
    · rw [if_pos hp]
      exact ih acc h
    · rw [if_neg hp]
      by_cases hn : normalize_phone c.phone = ""
      · simp only [hn, if_pos]
        exact ih acc h
      · simp only [if_neg hn]
        refine ih _ ?_
        intro pe hpe
        have hkey : pe.1 ∈ acc.map Prod.fst ∨ pe.1 = normalize_phone c.phone :=
          mem_keys_addClient (List.mem_map_of_mem Prod.fst hpe)
        rcases hkey with hk | hk
        · obtain ⟨pe', hpe', hfst⟩ := List.mem_map.mp hk
          have := h pe' hpe'
          rw [hfst] at this
          exact this
        · rw [hk]
          exact ⟨hn, normalize_idem c.phone, normalize_phone_digits c.phone⟩

/-! ## Lemmas: the step-5 loop -/

theorem planFold_char (today : String) (lr : Nat)
    (ne0 : List (String × Nat)) :
    ∀ (roster : List (String × RosterEntry)) (ext : List (String × Nat))
      (us : List UpdateRange) (nr : List Rowv),
      (roster.map Prod.fst).Nodup →
      (∀ q ∈ ext.map Prod.fst, q ∉ roster.map Prod.fst) →
      (roster.foldl (planStep today lr) ⟨ne0 ++ ext, us, nr⟩).all_updates
          = us ++ rosterUpdates ne0 roster ∧
      (roster.foldl (planStep today lr) ⟨ne0 ++ ext, us, nr⟩).new_rows
          = nr ++ rosterNewRows today ne0 roster := by
  intro roster
  induction roster with
  | nil =>
    intro ext us nr hnd hdisj
    simp [rosterUpdates, rosterNewRows]
  | cons pe rest ih =>
    intro ext us nr hnd hdisj
    obtain ⟨pn, e⟩ := pe
    simp only [List.map_cons, List.nodup_cons] at hnd
    have hpn_ext : pn ∉ ext.map Prod.fst := by
      intro hmem
      exact hdisj pn hmem (by simp)
    have hget : dictGet (ne0 ++ ext) pn = dictGet ne0 pn :=
      dictGet_append_not_mem hpn_ext
    simp only [List.foldl_cons]
    by_cases hz : dictGet ne0 pn ≠ 0
    · have hstep : planStep today lr ⟨ne0 ++ ext, us, nr⟩ (pn, e)
          = ⟨ne0 ++ ext, us ++ updatesFor pn e (dictGet ne0 pn), nr⟩ := by
        simp [planStep, hget, hz]
      rw [hstep]
      obtain ⟨h1, h2⟩ := ih ext (us ++ updatesFor pn e (dictGet ne0 pn)) nr
        hnd.2 (fun q hq hmem => hdisj q hq (List.mem_cons_of_mem _ hmem))
      refine ⟨?_, ?_⟩
      · rw [h1]
        simp [rosterUpdates, hz]
      · rw [h2]
        simp [rosterNewRows, hz]
    · push_neg at hz
      have hstep : planStep today lr ⟨ne0 ++ ext, us, nr⟩ (pn, e)
          = ⟨ne0 ++ (ext ++ [(pn, lr + (nr ++ [materializeRow today pn e]).length)]),
             us, nr ++ [materializeRow today pn e]⟩ := by
        simp [planStep, hget, hz]
      rw [hstep]
      have hdisj' : ∀ q ∈ (ext ++ [(pn, lr + (nr ++ [materializeRow today pn e]).length)]).map Prod.fst,
          q ∉ rest.map Prod.fst := by
        intro q hq
        simp only [List.map_append, List.mem_append, List.map_cons,
          List.map_nil, List.mem_singleton] at hq
        rcases hq with hq | hq
        · exact fun hmem => hdisj q hq (List.mem_cons_of_mem _ hmem)
        · rw [hq]
          exact hnd.1
      obtain ⟨h1, h2⟩ := ih _ us (nr ++ [materializeRow today pn e])
        hnd.2 hdisj'
      refine ⟨?_, ?_⟩
      · rw [h1]
        simp [rosterUpdates, hz]
      · rw [h2]
        simp [rosterNewRows, hz]

theorem makePlan_clears (today : String) (clients : List ClientRecord)
    (g : Grid) : (makePlan today clients g).duplicate_clears
      = duplicate_clears_of (get_existing_phones g) := rfl

theorem makePlan_last_row (today : String) (clients : List ClientRecord)
    (g : Grid) : (makePlan today clients g).last_row
      = last_row_of (get_existing_phones g) := rfl

theorem makePlan_all_updates (today : String) (clients : List ClientRecord)
    (g : Grid) : (makePlan today clients g).all_updates
      = rosterUpdates (ne0_of (get_existing_phones g)) (buildRoster clients) := by
  have h := planFold_char today (last_row_of (get_existing_phones g))
    (ne0_of (get_existing_phones g)) (buildRoster clients) [] [] []
    (nodup_keys_buildRoster clients) (by simp)
  simpa [makePlan] using h.1

theorem makePlan_new_rows (today : String) (clients : List ClientRecord)
    (g : Grid) : (makePlan today clients g).new_rows
      = rosterNewRows today (ne0_of (get_existing_phones g))
          (buildRoster clients) := by
  have h := planFold_char today (last_row_of (get_existing_phones g))
    (ne0_of (get_existing_phones g)) (buildRoster clients) [] [] []
    (nodup_keys_buildRoster clients) (by simp)
  simpa [makePlan] using h.2

theorem mem_setUnion {a b : List String} {d : String} :
    d ∈ setUnion a b ↔ d ∈ a ∨ d ∈ b := by
  simp [setUnion, List.mem_filter]
  tauto

/-! ## Claim C7: merge of store-side duplicates -/

/-- **C7.** Two store records sharing one normalized phone are merged by
the roster loader into a single logical entry whose document-type set is
the union of the two records' sets, and whose folder reference is a
non-empty one taken from either record whenever at least one record has
a non-empty folder reference. -/
theorem C7_store_duplicates_merge (c1 c2 : ClientRecord)
    (h1 : c1.phone ≠ "") (h2 : c2.phone ≠ "")
    (hn1 : normalize_phone c1.phone ≠ "")
    (heq : normalize_phone c1.phone = normalize_phone c2.phone) :
    ∃ e : RosterEntry,
      buildRoster [c1, c2] = [(normalize_phone c1.phone, e)] ∧
      (∀ d, d ∈ e.doc_types ↔
        d ∈ c1.document_types ∨ d ∈ c2.document_types) ∧
      ((c1.drive_folder_url ≠ "" ∨ c2.drive_folder_url ≠ "") →
        e.drive_folder_url ≠ "" ∧
        (e.drive_folder_url = c1.drive_folder_url ∨
          e.drive_folder_url = c2.drive_folder_url)) := by
  have hcalc : buildRoster [c1, c2]
      = [(normalize_phone c1.phone, mergeEntry (entryOf c1) c2)] := by
    simp only [buildRoster, List.foldl_cons, List.foldl_nil]
    simp [h1, h2, hn1, ← heq, addClient]
  refine ⟨mergeEntry (entryOf c1) c2, hcalc, ?_, ?_⟩
  · intro d
    show d ∈ setUnion (entryOf c1).doc_types c2.document_types ↔ _
    rw [mem_setUnion]
    rfl
  · intro hor
    have hfol : (mergeEntry (entryOf c1) c2).drive_folder_url
        = if c1.drive_folder_url = "" ∧ c2.drive_folder_url ≠ "" then
            c2.drive_folder_url
          else c1.drive_folder_url := rfl
    rw [hfol]
    by_cases hc : c1.drive_folder_url = "" ∧ c2.drive_folder_url ≠ ""
    · rw [if_pos hc]
      exact ⟨hc.2, Or.inr rfl⟩
    · rw [if_neg hc]
      push_neg at hc
      refine ⟨?_, Or.inl rfl⟩
      intro hempty
      have hc2 : c2.drive_folder_url = "" := hc hempty
      rcases hor with h | h
      · exact h hempty
      · exact h hc2

/-! ## Lemmas: enumeration of written cells -/

theorem mem_rowCells {w : CellWrite} {r c : Nat} {vs : List Cell} :
    w ∈ rowCells r c vs ↔
      ∃ j, j < vs.length ∧ w = ⟨r, c + j, nth vs j ""⟩ := by
  induction vs generalizing c with
  | nil => simp [rowCells]
  | cons v t ih =>
    simp only [rowCells, List.mem_cons, ih]
    constructor
    · rintro (rfl | ⟨j, hj, rfl⟩)
      · refine ⟨0, by simp, ?_⟩
        simp [nth]
      · refine ⟨j + 1, by simpa using hj, ?_⟩
        have harith : c + (j + 1) = c + 1 + j := by omega
        rw [harith]
        rfl
    · rintro ⟨j, hj, rfl⟩
      cases j with
      | zero =>
        left
        simp [nth]
      | succ m =>
        right
        refine ⟨m, by simpa using hj, ?_⟩
        have harith : c + (m + 1) = c + 1 + m := by omega
        rw [harith]
        rfl

theorem mem_rangeCells {w : CellWrite} {r0 c0 : Nat}
    {rows : List (List Cell)} :
    w ∈ rangeCells r0 c0 rows ↔
      ∃ i, i < rows.length ∧ w ∈ rowCells (r0 + i) c0 (nth rows i []) := by
  induction rows generalizing r0 with
  | nil => simp [rangeCells]
  | cons row rest ih =>
    simp only [rangeCells, List.mem_append, ih]
    constructor
    · rintro (h | ⟨i, hi, h⟩)
      · exact ⟨0, by simp, by simpa [nth] using h⟩
      · refine ⟨i + 1, by simpa using hi, ?_⟩
        show w ∈ rowCells (r0 + (i + 1)) c0 (nth (row :: rest) (i + 1) [])
        have harith : r0 + (i + 1) = r0 + 1 + i := by omega
        rw [harith]
        exact h
    · rintro ⟨i, hi, h⟩
      cases i with
      | zero => left; simpa [nth] using h
      | succ m =>
        right
        refine ⟨m, by simpa using hi, ?_⟩
        have harith : r0 + 1 + m = r0 + (m + 1) := by omega
        rw [harith]
        exact h

theorem nth_replicate {α : Type} (n j : Nat) (d : α) :
    nth (List.replicate n d) j d = d := by
  induction n generalizing j with
  | zero => cases j <;> rfl
  | succ m ih =>
    cases j with
    | zero => rfl
    | succ i => exact ih i

theorem mem_cells_clearRange {w : CellWrite} {r : Nat} :
    w ∈ cellsOfRange (clearRange r) ↔
      w.row = r ∧ w.col < 26 ∧ w.val = "" := by
  show w ∈ rangeCells r 0 [List.replicate 26 ""] ↔ _
  rw [mem_rangeCells]
  constructor
  · rintro ⟨i, hi, h⟩
    have hi0 : i = 0 := by simpa using hi
    subst hi0
    rw [show nth [List.replicate 26 ""] 0 ([] : List Cell)
        = List.replicate 26 "" from rfl] at h
    obtain ⟨j, hj, rfl⟩ := mem_rowCells.mp h
    rw [List.length_replicate] at hj
    exact ⟨by simp, by simpa using hj, nth_replicate 26 j ""⟩
  · rintro ⟨hr, hc, hv⟩
    obtain ⟨a, b, c⟩ := w
    replace hr : a = r := hr
    replace hc : b < 26 := hc
    replace hv : c = "" := hv
    subst hr
    subst hv
    refine ⟨0, by simp, ?_⟩
    rw [mem_rowCells,
      show nth [List.replicate 26 ""] 0 ([] : List Cell)
        = List.replicate 26 "" from rfl]
    refine ⟨b, by rw [List.length_replicate]; exact hc, ?_⟩
    rw [nth_replicate 26 b "", Nat.add_zero, Nat.zero_add]

theorem checkboxes_length (e : RosterEntry) : (checkboxes e).length = 10 := by
  simp [checkboxes, DOC_TYPES]

theorem materializeRow_length (today pn : String) (e : RosterEntry) :
    (materializeRow today pn e).length = 15 := by
  simp [materializeRow, checkboxes, DOC_TYPES]

theorem cells_phoneRange (r : Nat) (pn : String) :
    cellsOfRange ⟨r, 2, [[pn]]⟩ = [⟨r, 2, pn⟩] := rfl

theorem cells_folderRange (r : Nat) (u : String) :
    cellsOfRange ⟨r, 4, [[u]]⟩ = [⟨r, 4, u⟩] := rfl

theorem cells_flagsRange (r : Nat) (e : RosterEntry) :
    cellsOfRange ⟨r, 5, [checkboxes e]⟩ = rowCells r 5 (checkboxes e) := by
  show rangeCells r 5 [checkboxes e] = _
  simp [rangeCells]

theorem mem_cells_updatesFor {w : CellWrite} {pn : String}
    {e : RosterEntry} {r : Nat} :
    w ∈ ((updatesFor pn e r).map cellsOfRange).flatten ↔
      (w = ⟨r, 2, pn⟩ ∨ w = ⟨r, 4, e.drive_folder_url⟩ ∨
        ∃ j, j < 10 ∧ w = ⟨r, 5 + j, nth (checkboxes e) j ""⟩) := by
  have hflat : ((updatesFor pn e r).map cellsOfRange).flatten
      = ⟨r, 2, pn⟩ :: ⟨r, 4, e.drive_folder_url⟩ ::
          rowCells r 5 (checkboxes e) := by
    simp [updatesFor, cells_phoneRange, cells_folderRange,
      cells_flagsRange]
  rw [hflat]
  simp only [List.mem_cons]
  constructor
  · rintro (rfl | rfl | h)
    · exact Or.inl rfl
    · exact Or.inr (Or.inl rfl)
    · obtain ⟨j, hj, rfl⟩ := mem_rowCells.mp h
      rw [checkboxes_length] at hj
      exact Or.inr (Or.inr ⟨j, hj, rfl⟩)
  · rintro (rfl | rfl | ⟨j, hj, rfl⟩)
    · exact Or.inl rfl
    · exact Or.inr (Or.inl rfl)
    · exact Or.inr (Or.inr (mem_rowCells.mpr
        ⟨j, by rw [checkboxes_length]; exact hj, rfl⟩))

theorem mem_updates_cells {w : CellWrite} {ne0 : List (String × Nat)}
    {roster : List (String × RosterEntry)} :
    w ∈ ((rosterUpdates ne0 roster).map cellsOfRange).flatten ↔
      ∃ pe ∈ roster, dictGet ne0 pe.1 ≠ 0 ∧
        (w = ⟨dictGet ne0 pe.1, 2, pe.1⟩ ∨
         w = ⟨dictGet ne0 pe.1, 4, pe.2.drive_folder_url⟩ ∨
         ∃ j, j < 10 ∧
           w = ⟨dictGet ne0 pe.1, 5 + j, nth (checkboxes pe.2) j ""⟩) := by
  induction roster with
  | nil => simp [rosterUpdates]
  | cons pe rest ih =>
    have hsplit : rosterUpdates ne0 (pe :: rest)
        = (if dictGet ne0 pe.1 ≠ 0 then
            updatesFor pe.1 pe.2 (dictGet ne0 pe.1) else [])
          ++ rosterUpdates ne0 rest := by
      simp [rosterUpdates]
    rw [hsplit]
    by_cases hz : dictGet ne0 pe.1 ≠ 0
    · rw [if_pos hz]
      simp only [List.map_append, List.flatten_append, List.mem_append,
        ih, mem_cells_updatesFor]
      constructor
      · rintro (h | ⟨pe', hpe', h⟩)
        · exact ⟨pe, List.mem_cons_self _ _, hz, h⟩
        · exact ⟨pe', List.mem_cons_of_mem _ hpe', h⟩
      · rintro ⟨pe', hpe', hz', h⟩
        rcases List.mem_cons.mp hpe' with rfl | hmem
        · exact Or.inl h
        · exact Or.inr ⟨pe', hmem, hz', h⟩
    · rw [if_neg hz]
      simp only [List.map_nil, List.flatten_nil, List.nil_append,
        List.map, List.flatten, ih]
      constructor
      · rintro ⟨pe', hpe', h⟩
        exact ⟨pe', List.mem_cons_of_mem _ hpe', h⟩
      · rintro ⟨pe', hpe', hz', h⟩
        rcases List.mem_cons.mp hpe' with rfl | hmem
        · exact absurd hz' hz
        · exact ⟨pe', hmem, hz', h⟩

theorem mem_clears_cells {w : CellWrite} {eps : Groups} :
    w ∈ ((duplicate_clears_of eps).map cellsOfRange).flatten ↔
      ∃ e ∈ eps, ∃ r ∈ e.2.tail, w.row = r ∧ w.col < 26 ∧ w.val = "" := by
  constructor
  · intro h
    obtain ⟨cells, hcells, hw⟩ := List.mem_flatten.mp h
    obtain ⟨u, hu, rfl⟩ := List.mem_map.mp hcells
    obtain ⟨us, hus, hu2⟩ := List.mem_flatten.mp
      (show u ∈ (eps.map
        (fun kr => kr.2.tail.map clearRange)).flatten from hu)
    obtain ⟨e, he, rfl⟩ := List.mem_map.mp hus
    obtain ⟨r, hr, rfl⟩ := List.mem_map.mp hu2
    obtain ⟨h1, h2, h3⟩ := mem_cells_clearRange.mp hw
    exact ⟨e, he, r, hr, h1, h2, h3⟩
  · rintro ⟨e, he, r, hr, h1, h2, h3⟩
    apply List.mem_flatten.mpr
    refine ⟨cellsOfRange (clearRange r),
      List.mem_map_of_mem cellsOfRange ?_,
      mem_cells_clearRange.mpr ⟨h1, h2, h3⟩⟩
    show clearRange r ∈ duplicate_clears_of eps
    apply List.mem_flatten.mpr
    exact ⟨e.2.tail.map clearRange,
      List.mem_map_of_mem (fun kr => kr.2.tail.map clearRange) he,
      List.mem_map_of_mem clearRange hr⟩

theorem nth_mem {α : Type} {l : List α} {i : Nat} (d : α)
    (h : i < l.length) : nth l i d ∈ l := by
  induction l generalizing i with
  | nil => simp at h
  | cons a t ih =>
    cases i with
    | zero => exact List.mem_cons_self a t
    | succ m => exact List.mem_cons_of_mem a (ih (by simpa using h))

/-- When a key is present (truthy) in `normalized_existing`, its row is
the head of its snapshot row list, lies in that list, and is ≥ 2. -/
theorem dictGet_ne0_mem {g : Grid} {q : String}
    (hz : dictGet (ne0_of (get_existing_phones g)) q ≠ 0) :
    dictGet (ne0_of (get_existing_phones g)) q
        ∈ rowsOf (get_existing_phones g) q ∧
      2 ≤ dictGet (ne0_of (get_existing_phones g)) q := by
  rw [dictGet_ne0] at hz ⊢
  rcases h : rowsOf (get_existing_phones g) q with _ | ⟨a, t⟩
  · rw [h] at hz
    simp at hz
  · simp only [List.headD_cons]
    have ha : a ∈ rowsOf (get_existing_phones g) q := by
      rw [h]
      exact List.mem_cons_self a t
    exact ⟨List.mem_cons_self a t, rowsOf_ge_two ha⟩

/-- Every written cell of a plan targets a data row (row ≥ 2). -/
theorem planCells_row_ge_two (today : String)
    (clients : List ClientRecord) (g : Grid) (w : CellWrite)
    (hw : w ∈ planCells (makePlan today clients g)) : 2 ≤ w.row := by
  rw [planCells, List.mem_append, List.mem_append] at hw
  rcases hw with (hw | hw) | hw
  · show 2 ≤ w.row
    obtain ⟨e, he, r, hr, hrow, -, -⟩ := mem_clears_cells.mp
      (show w ∈ ((duplicate_clears_of (get_existing_phones g)).map
        cellsOfRange).flatten from hw)
    have hrs : rowsOf (get_existing_phones g) e.1 = e.2 :=
      rowsOf_entry (nodup_keys_get_existing g)
        (by rcases e with ⟨k, rs⟩; exact he)
    have : r ∈ rowsOf (get_existing_phones g) e.1 := by
      rw [hrs]
      exact List.mem_of_mem_tail hr
    rw [hrow]
    exact rowsOf_ge_two this
  · obtain ⟨i, hi, h⟩ := mem_rangeCells.mp hw
    obtain ⟨j, hj, rfl⟩ := mem_rowCells.mp h
    show 2 ≤ (makePlan today clients g).last_row + 1 + i
    have := last_row_of_ge_one (get_existing_phones g)
    rw [makePlan_last_row]
    omega
  · rw [updateCells, makePlan_all_updates] at hw
    obtain ⟨pe, hpe, hz, hcase⟩ := mem_updates_cells.mp hw
    have h2 := (dictGet_ne0_mem hz).2
    rcases hcase with rfl | rfl | ⟨j, hj, rfl⟩ <;> exact h2

/-! ## Claim C10: the header row is never touched -/

/-- **C10.** Every cell mutation of a cycle — duplicate clear, append or
update — targets a sheet row index at least `FIRST_DATA_ROW = 2`; the
header row (row 1) is never written, for every roster and sink. -/
theorem C10_header_never_written (today : String)
    (clients : List ClientRecord) (g : Grid) (w : CellWrite)
    (hw : w ∈ planCells (makePlan today clients g)) : 2 ≤ w.row :=
  planCells_row_ge_two today clients g w hw

/-- Witness for C10 at a concrete sink: the duplicate clear of row 3. -/
theorem C10_witness :
    CellWrite.mk 3 0 "" ∈ planCells (makePlan "01.01.2025" [] gEx) ∧
      2 ≤ (CellWrite.mk 3 0 "").row :=
  ⟨by decide, C10_header_never_written "01.01.2025" [] gEx _ (by decide)⟩

/-! ## Claim C2: which columns a cycle writes -/

/-- **C2 (amended).** Appends and existing-row updates stay inside the
declared schema: every cell they write lies in columns A .. O (indices
0 .. 14).  Duplicate clears do not: each clear blanks columns
A .. Z (indices 0 .. 25) of its row, writing the empty string into the
out-of-schema columns P .. Z as well. -/
theorem C2_write_columns (today : String) (clients : List ClientRecord)
    (g : Grid) :
    (∀ w ∈ appendCells (makePlan today clients g), w.col ≤ 14) ∧
    (∀ w ∈ updateCells (makePlan today clients g), w.col ≤ 14) ∧
    (∀ w ∈ clearCells (makePlan today clients g),
      w.col ≤ 25 ∧ w.val = "") := by
  refine ⟨?_, ?_, ?_⟩
  · intro w hw
    obtain ⟨i, hi, h⟩ := mem_rangeCells.mp hw
    obtain ⟨j, hj, rfl⟩ := mem_rowCells.mp h
    show 0 + j ≤ 14
    rw [makePlan_new_rows] at hi hj
    have hmem := nth_mem ([] : Rowv) hi
    obtain ⟨pe, hpe, hrow⟩ := List.mem_map.mp
      (show nth (rosterNewRows today (ne0_of (get_existing_phones g))
        (buildRoster clients)) i []
        ∈ (List.filter _ (buildRoster clients)).map
          (fun pe => materializeRow today pe.1 pe.2) from hmem)
    rw [← hrow] at hj
    rw [materializeRow_length] at hj
    omega
  · intro w hw
    rw [updateCells, makePlan_all_updates] at hw
    obtain ⟨pe, hpe, hz, hcase⟩ := mem_updates_cells.mp hw
    rcases hcase with rfl | rfl | ⟨j, hj, rfl⟩
    · show 2 ≤ 14
      omega
    · show 4 ≤ 14
      omega
    · show 5 + j ≤ 14
      omega
  · intro w hw
    obtain ⟨e, he, r, hr, hrow, hcol, hval⟩ := mem_clears_cells.mp
      (show w ∈ ((duplicate_clears_of (get_existing_phones g)).map
        cellsOfRange).flatten from hw)
    exact ⟨by omega, hval⟩

/-- Counterexample to C2 as stated: on the example sink, the duplicate
clear of row 3 writes the empty string into column P (index 15), and the
cycle changes that out-of-schema cell from `"manual note"` to `""`. -/
theorem C2_counterexample :
    CellWrite.mk 3 15 "" ∈ planCells (makePlan "01.01.2025" [] gEx) ∧
    cellAt gEx 3 15 = "manual note" ∧
    cellAt (runCycle "01.01.2025" [] gEx 100) 3 15 = "" := by
  refine ⟨by decide, by decide, by decide⟩

/-- Witness for C2 (amended) at a concrete sink: an append cell in
column A and a clear cell in column P. -/
theorem C2_witness :
    (CellWrite.mk 4 0 "03.04.2024"
        ∈ appendCells (makePlan "01.01.2025" [cw3] gEx) ∧
      (CellWrite.mk 4 0 "03.04.2024").col ≤ 14) ∧
    (CellWrite.mk 3 15 "" ∈ clearCells (makePlan "01.01.2025" [cw3] gEx) ∧
      (CellWrite.mk 3 15 "").col ≤ 25 ∧
      (CellWrite.mk 3 15 "").val = "") :=
  ⟨⟨by decide, (C2_write_columns "01.01.2025" [cw3] gEx).1 _ (by decide)⟩,
   ⟨by decide,
    (C2_write_columns "01.01.2025" [cw3] gEx).2.2 _ (by decide)⟩⟩

/-- Witness for C7, with the spec's own example: disjoint tag sets
`{a, b}` and `{b, c}` on one shared phone. -/
theorem C7_witness :
    ∃ e : RosterEntry,
      buildRoster [cw1, cw2] = [(normalize_phone cw1.phone, e)] ∧
      (∀ d, d ∈ e.doc_types ↔
        d ∈ cw1.document_types ∨ d ∈ cw2.document_types) ∧
      ((cw1.drive_folder_url ≠ "" ∨ cw2.drive_folder_url ≠ "") →
        e.drive_folder_url ≠ "" ∧
        (e.drive_folder_url = cw1.drive_folder_url ∨
          e.drive_folder_url = cw2.drive_folder_url)) :=
  C7_store_duplicates_merge cw1 cw2 (by decide) (by decide) (by decide)
    (by decide)

/-! ## Lemmas: the writer trace -/

theorem mem_clearEvents {p : Plan} {e : Event} (h : e ∈ clearEvents p) :
    isClear e = true := by
  rw [clearEvents] at h
  split at h
  · simp at h
  · obtain ⟨c, -, rfl⟩ := List.mem_map.mp h
    rfl

theorem mem_growEvents {p : Plan} {cap : Nat} {e : Event}
    (h : e ∈ growEvents p cap) :
    e = Event.grow (p.last_row + p.new_rows.length - cap + 50) ∧
      cap < p.last_row + p.new_rows.length := by
  rw [growEvents] at h
  split at h
  · simp at h
    exact ⟨h, by assumption⟩
  · simp at h

theorem mem_appendEvents {p : Plan} {e : Event}
    (h : e ∈ appendEvents p) :
    e = Event.appendWrite (p.last_row + 1) p.new_rows ∧
      p.new_rows ≠ [] := by
  rw [appendEvents] at h
  split at h
  · simp at h
  · simp at h
    refine ⟨h, ?_⟩
    intro hnil
    simp_all

theorem mem_updateEvents {p : Plan} {e : Event}
    (h : e ∈ updateEvents p) : isUpdate e = true := by
  rw [updateEvents] at h
  split at h
  · simp at h
  · obtain ⟨c, -, rfl⟩ := List.mem_map.mp h
    rfl

theorem isClear_grow {e : Event} (h : isGrow e = true) :
    isClear e = false := by
  cases e <;> simp_all [isGrow, isClear]

theorem isClear_append {e : Event} (h : isAppend e = true) :
    isClear e = false := by
  cases e <;> simp_all [isAppend, isClear]

theorem isClear_update {e : Event} (h : isUpdate e = true) :
    isClear e = false := by
  cases e <;> simp_all [isUpdate, isClear]

theorem isUpdate_clear {e : Event} (h : isClear e = true) :
    isUpdate e = false := by
  cases e <;> simp_all [isUpdate, isClear]

theorem isUpdate_grow {e : Event} (h : isGrow e = true) :
    isUpdate e = false := by
  cases e <;> simp_all [isUpdate, isGrow]

theorem isUpdate_append {e : Event} (h : isAppend e = true) :
    isUpdate e = false := by
  cases e <;> simp_all [isUpdate, isAppend]

/-- In a concatenation whose first part is all-`P` and whose second part
is all-not-`P`, every not-`P` position is after every `P` position. -/
theorem append_kind_lt {A B : List Event} {P : Event → Bool}
    (hA : ∀ e ∈ A, P e = true) (hB : ∀ e ∈ B, P e = false)
    {i j : Nat} {ei ej : Event}
    (hi : (A ++ B).get? i = some ei) (hPi : P ei = false)
    (hj : (A ++ B).get? j = some ej) (hPj : P ej = true) :
    j < i := by
  have hiA : A.length ≤ i := by
    by_contra hlt
    push_neg at hlt
    rw [List.get?_append hlt] at hi
    have := hA ei (List.get?_mem hi)
    rw [this] at hPi
    exact Bool.noConfusion hPi
  have hjA : j < A.length := by
    by_contra hge
    push_neg at hge
    rw [List.get?_append_right hge] at hj
    have := hB ej (List.get?_mem hj)
    rw [this] at hPj
    exact Bool.noConfusion hPj
  omega

/-! ## Claim C8: write ordering within one cycle -/

/-- **C8.** In every trace the writer produces, all duplicate-clear
batches come before the append write, and the append write comes before
all update batches (hence clears also precede updates). -/
theorem C8_write_ordering (today : String) (clients : List ClientRecord)
    (g : Grid) (cap : Nat) {i j : Nat} {ei ej : Event}
    (hi : (writerTrace (makePlan today clients g) cap).get? i = some ei)
    (hj : (writerTrace (makePlan today clients g) cap).get? j = some ej) :
    (isClear ei = true → isAppend ej = true → i < j) ∧
    (isClear ei = true → isUpdate ej = true → i < j) ∧
    (isAppend ei = true → isUpdate ej = true → i < j) := by
  set p := makePlan today clients g with hp
  have hAfirst : ∀ e ∈ clearEvents p, isClear e = true :=
    fun e he => mem_clearEvents he
  have hArest : ∀ e ∈ growEvents p cap ++ appendEvents p ++
      updateEvents p, isClear e = false := by
    intro e he
    rw [List.mem_append, List.mem_append] at he
    rcases he with (he | he) | he
    · exact isClear_grow (by rw [(mem_growEvents he).1]; rfl)
    · exact isClear_append (by rw [(mem_appendEvents he).1]; rfl)
    · exact isClear_update (mem_updateEvents he)
  have hassoc : writerTrace p cap = clearEvents p ++
      (growEvents p cap ++ appendEvents p ++ updateEvents p) := by
    rw [writerTrace]
    simp only [List.append_assoc]
  have hassoc2 : writerTrace p cap = (clearEvents p ++ growEvents p cap ++
      appendEvents p) ++ updateEvents p := by
    rw [writerTrace]
  have hUfirst : ∀ e ∈ clearEvents p ++ growEvents p cap ++
      appendEvents p, isUpdate e = false := by
    intro e he
    rw [List.mem_append, List.mem_append] at he
    rcases he with (he | he) | he
    · exact isUpdate_clear (mem_clearEvents he)
    · exact isUpdate_grow (by rw [(mem_growEvents he).1]; rfl)
    · exact isUpdate_append (by rw [(mem_appendEvents he).1]; rfl)
  have hUlast : ∀ e ∈ updateEvents p, isUpdate e = true :=
    fun e he => mem_updateEvents he
  refine ⟨?_, ?_, ?_⟩
  · intro hci haj
    exact append_kind_lt hAfirst hArest (hassoc ▸ hj)
      (isClear_append haj) (hassoc ▸ hi) hci
  · intro hci huj
    exact append_kind_lt hAfirst hArest (hassoc ▸ hj)
      (isClear_update huj) (hassoc ▸ hi) hci
  · intro hai huj
    exact append_kind_lt
      (P := fun e => !(isUpdate e))
      (fun e he => by simp [hUfirst e he])
      (fun e he => by simp [hUlast e he])
      (hassoc2 ▸ hj) (by simp [huj])
      (hassoc2 ▸ hi) (by simp [isUpdate_append hai])

/-- Witness for C8 on a concrete cycle whose trace has a clear (index
0), an append (index 1) and an update batch (index 2). -/
theorem C8_witness :
    ((0 : Nat) < 1 ∧ (0 : Nat) < 2) ∧ (1 : Nat) < 2 := by
  have h01 := @C8_write_ordering "01.01.2025" [cw1, cw3] gEx 100 0 1
    (Event.clearChunk [clearRange 3])
    (Event.appendWrite 4
      [materializeRow "01.01.2025" "380671112233" (entryOf cw3)])
    (by decide) (by decide)
  have h02 := @C8_write_ordering "01.01.2025" [cw1, cw3] gEx 100 0 2
    (Event.clearChunk [clearRange 3])
    (Event.updateChunk (updatesFor "380501234567" (entryOf cw1) 2))
    (by decide) (by decide)
  have h12 := @C8_write_ordering "01.01.2025" [cw1, cw3] gEx 100 1 2
    (Event.appendWrite 4
      [materializeRow "01.01.2025" "380671112233" (entryOf cw3)])
    (Event.updateChunk (updatesFor "380501234567" (entryOf cw1) 2))
    (by decide) (by decide)
  exact ⟨⟨h01.1 (by decide) (by decide), h02.2.1 (by decide) (by decide)⟩,
    h12.2.2 (by decide) (by decide)⟩

/-- Any append write in a trace is the single contiguous block write of
step 8: it starts at `last_row + 1`, carries exactly `new_rows`, and
sits right after the clear and grow segments. -/
theorem append_event_loc {p : Plan} {cap : Nat} {j : Nat} {s : Nat}
    {rows : List Rowv}
    (h : (writerTrace p cap).get? j = some (Event.appendWrite s rows)) :
    s = p.last_row + 1 ∧ rows = p.new_rows ∧
      j = (clearEvents p).length + (growEvents p cap).length := by
  have hassoc : writerTrace p cap = clearEvents p ++
      (growEvents p cap ++ (appendEvents p ++ updateEvents p)) := by
    rw [writerTrace]
    simp only [List.append_assoc]
  rw [hassoc] at h
  have hjA : (clearEvents p).length ≤ j := by
    by_contra hlt
    push_neg at hlt
    rw [List.get?_append hlt] at h
    have := mem_clearEvents (List.get?_mem h)
    simp [isClear] at this
  rw [List.get?_append_right hjA] at h
  have hjB : (growEvents p cap).length ≤ j - (clearEvents p).length := by
    by_contra hlt
    push_neg at hlt
    rw [List.get?_append hlt] at h
    have := (mem_growEvents (List.get?_mem h)).1
    exact Event.noConfusion this
  rw [List.get?_append_right hjB] at h
  have hjC : j - (clearEvents p).length - (growEvents p cap).length
      < (appendEvents p).length := by
    by_contra hge
    push_neg at hge
    rw [List.get?_append_right hge] at h
    have := mem_updateEvents (List.get?_mem h)
    simp [isUpdate] at this
  rw [List.get?_append hjC] at h
  obtain ⟨heq, -⟩ := mem_appendEvents (List.get?_mem h)
  obtain ⟨rfl, rfl⟩ : s = p.last_row + 1 ∧ rows = p.new_rows := by
    cases heq
    exact ⟨rfl, rfl⟩
  refine ⟨rfl, rfl, ?_⟩
  have hlen : (appendEvents p).length ≤ 1 := by
    rw [appendEvents]
    split <;> simp
  omega

/-- The capacity growth accumulated before the append write's position
is exactly the `ensure_rows` growth of this cycle. -/
theorem growthBefore_at_append (p : Plan) (cap : Nat) :
    growthBefore (writerTrace p cap)
        ((clearEvents p).length + (growEvents p cap).length)
      = if cap < p.last_row + p.new_rows.length then
          p.last_row + p.new_rows.length - cap + 50
        else 0 := by
  have hassoc : writerTrace p cap = clearEvents p ++
      (growEvents p cap ++ (appendEvents p ++ updateEvents p)) := by
    rw [writerTrace]
    simp only [List.append_assoc]
  rw [growthBefore, hassoc, List.take_append_eq_append_take,
    List.take_of_length_le (by omega),
    Nat.add_sub_cancel_left, List.take_append_eq_append_take,
    List.take_length (growEvents p cap), Nat.sub_self, List.take_zero,
    List.append_nil, List.map_append, List.sum_append]
  have hA : ((clearEvents p).map
      (fun e => match e with | .grow n => n | _ => 0)).sum = 0 := by
    apply List.sum_eq_zero
    intro x hx
    obtain ⟨e, he, rfl⟩ := List.mem_map.mp hx
    have := mem_clearEvents he
    cases e <;> simp_all [isClear]
  rw [hA, Nat.zero_add, growEvents]
  split <;> simp

/-! ## Claim C9: capacity growth before appends -/

/-- **C9.** Every append write lands within the sink's capacity at the
time it is issued: its last written row is at most the initial capacity
plus all growth issued before it; and whenever the required rows exceed
the capacity, a grow of at least the deficit is issued strictly before
any append write. -/
theorem C9_capacity_growth (today : String) (clients : List ClientRecord)
    (g : Grid) (cap : Nat) :
    (∀ j s rows, (writerTrace (makePlan today clients g) cap).get? j
        = some (Event.appendWrite s rows) →
      s - 1 + rows.length
        ≤ cap + growthBefore (writerTrace (makePlan today clients g) cap) j) ∧
    (cap < (makePlan today clients g).last_row
        + (makePlan today clients g).new_rows.length →
      ∀ j s rows, (writerTrace (makePlan today clients g) cap).get? j
          = some (Event.appendWrite s rows) →
        ∃ i a, (writerTrace (makePlan today clients g) cap).get? i
            = some (Event.grow a) ∧ i < j ∧
          (makePlan today clients g).last_row
            + (makePlan today clients g).new_rows.length - cap ≤ a) := by
  set p := makePlan today clients g with hp
  constructor
  · intro j s rows h
    obtain ⟨rfl, rfl, rfl⟩ := append_event_loc h
    rw [growthBefore_at_append]
    split
    · omega
    · rename_i hcond
      push_neg at hcond
      omega
  · intro hcond j s rows h
    obtain ⟨rfl, rfl, rfl⟩ := append_event_loc h
    refine ⟨(clearEvents p).length,
      p.last_row + p.new_rows.length - cap + 50, ?_, ?_, by omega⟩
    · have hassoc : writerTrace p cap = clearEvents p ++
          (growEvents p cap ++ (appendEvents p ++ updateEvents p)) := by
        rw [writerTrace]
        simp only [List.append_assoc]
      rw [hassoc, List.get?_append_right le_rfl, Nat.sub_self]
      rw [growEvents, if_pos hcond]
      rfl
    · have : (growEvents p cap).length = 1 := by
        rw [growEvents, if_pos hcond]
        rfl
      omega

/-- Witness for C9 on a concrete cycle: capacity 2, required rows 4;
the grow (index 1, amount 52) precedes the append (index 2), and the
append's last row 4 fits the grown capacity. -/
theorem C9_witness :
    (∃ i a, (writerTrace (makePlan "01.01.2025" [cw3] gEx) 2).get? i
        = some (Event.grow a) ∧ i < 2 ∧
      (makePlan "01.01.2025" [cw3] gEx).last_row
        + (makePlan "01.01.2025" [cw3] gEx).new_rows.length - 2 ≤ a) ∧
    (4 : Nat) - 1 + (makePlan "01.01.2025" [cw3] gEx).new_rows.length
      ≤ 2 + growthBefore (writerTrace (makePlan "01.01.2025" [cw3] gEx) 2) 2 :=
  ⟨(C9_capacity_growth "01.01.2025" [cw3] gEx 2).2 (by decide) 2 4
      (makePlan "01.01.2025" [cw3] gEx).new_rows (by decide),
   (C9_capacity_growth "01.01.2025" [cw3] gEx 2).1 2 4
      (makePlan "01.01.2025" [cw3] gEx).new_rows (by decide)⟩

/-- Column C of a materialized row is the normalized phone. -/
theorem nth_materializeRow_two (today pn : String) (e : RosterEntry) :
    nth (materializeRow today pn e) 2 "" = pn := rfl

/-- The phone cells of the appended rows are the missing roster keys in
roster order. -/
theorem makePlan_phone_cells (today : String) (clients : List ClientRecord)
    (g : Grid) :
    (makePlan today clients g).new_rows.map (fun row => nth row 2 "")
      = missingKeys (ne0_of (get_existing_phones g)) (buildRoster clients) := by
  rw [makePlan_new_rows, rosterNewRows, missingKeys, List.map_map]
  exact List.map_congr_left (fun pe hpe => rfl)

/-! ## Claim C3: append placement and ordering -/

/-- **C3.** The new roster phones, in roster processing order, are
exactly the phone cells of the appended rows in block order, the `j`-th
new phone is written at sheet row `last_row + 1 + j`, and when there is
anything to append the writer issues exactly one append write: the
contiguous block starting at `last_row + 1` carrying all new rows. -/
theorem C3_append_block (today : String) (clients : List ClientRecord)
    (g : Grid) (cap : Nat) :
    (makePlan today clients g).new_rows.map (fun row => nth row 2 "")
      = missingKeys (ne0_of (get_existing_phones g)) (buildRoster clients) ∧
    (∀ j pn, (missingKeys (ne0_of (get_existing_phones g))
        (buildRoster clients)).get? j = some pn →
      CellWrite.mk ((makePlan today clients g).last_row + 1 + j) 2 pn
        ∈ appendCells (makePlan today clients g)) ∧
    ((makePlan today clients g).new_rows ≠ [] →
      ∃ i, (writerTrace (makePlan today clients g) cap).get? i
          = some (Event.appendWrite
            ((makePlan today clients g).last_row + 1)
            (makePlan today clients g).new_rows) ∧
        ∀ i' s rows, (writerTrace (makePlan today clients g) cap).get? i'
            = some (Event.appendWrite s rows) →
          i' = i ∧ s = (makePlan today clients g).last_row + 1 ∧
            rows = (makePlan today clients g).new_rows) := by
  set p := makePlan today clients g with hp
  have hmap : p.new_rows.map (fun row => nth row 2 "")
      = missingKeys (ne0_of (get_existing_phones g)) (buildRoster clients) :=
    makePlan_phone_cells today clients g
  refine ⟨hmap, ?_, ?_⟩
  · intro j pn hj
    rw [← hmap, List.get?_map] at hj
    obtain ⟨row, hrow, hfrow⟩ := Option.map_eq_some'.mp hj
    have hlt : j < p.new_rows.length := (List.get?_eq_some.mp hrow).1
    have hnth : nth p.new_rows j [] = row := by
      rw [nth_eq_getD, hrow]
      rfl
    have hrowlen : row.length = 15 := by
      have hmem : row ∈ p.new_rows := List.get?_mem hrow
      rw [hp, makePlan_new_rows, rosterNewRows] at hmem
      obtain ⟨pe, -, rfl⟩ := List.mem_map.mp hmem
      exact materializeRow_length today pe.1 pe.2
    show CellWrite.mk (p.last_row + 1 + j) 2 pn
        ∈ rangeCells (p.last_row + 1) 0 p.new_rows
    refine mem_rangeCells.mpr ⟨j, hlt, mem_rowCells.mpr ⟨2, ?_, ?_⟩⟩
    · rw [hnth, hrowlen]
      omega
    · rw [hnth, hfrow]
  · intro hne
    refine ⟨(clearEvents p).length + (growEvents p cap).length, ?_, ?_⟩
    · have hassoc : writerTrace p cap = clearEvents p ++
          (growEvents p cap ++ (appendEvents p ++ updateEvents p)) := by
        rw [writerTrace]
        simp only [List.append_assoc]
      rw [hassoc, List.get?_append_right (by omega)]
      rw [show (clearEvents p).length + (growEvents p cap).length
          - (clearEvents p).length = (growEvents p cap).length by omega]
      rw [List.get?_append_right le_rfl, Nat.sub_self]
      rw [appendEvents, if_neg (by simpa using hne)]
      rfl
    · intro i' s rows h
      obtain ⟨hs, hrows, hi'⟩ := append_event_loc h
      exact ⟨hi', hs, hrows⟩

/-- Witness for C3: on the example sink (`last_row = 3`) with one new
roster phone, that phone is placed at row 4 and the trace's only append
is the block write at row 4. -/
theorem C3_witness :
    CellWrite.mk 4 2 "380671112233"
        ∈ appendCells (makePlan "01.01.2025" [cw3] gEx) ∧
    ∃ i, (writerTrace (makePlan "01.01.2025" [cw3] gEx) 100).get? i
        = some (Event.appendWrite
          ((makePlan "01.01.2025" [cw3] gEx).last_row + 1)
          (makePlan "01.01.2025" [cw3] gEx).new_rows) ∧
      ∀ i' s rows,
        (writerTrace (makePlan "01.01.2025" [cw3] gEx) 100).get? i'
          = some (Event.appendWrite s rows) →
        i' = i ∧ s = (makePlan "01.01.2025" [cw3] gEx).last_row + 1 ∧
          rows = (makePlan "01.01.2025" [cw3] gEx).new_rows :=
  ⟨(C3_append_block "01.01.2025" [cw3] gEx 100).2.1 0 "380671112233"
      (by decide),
   (C3_append_block "01.01.2025" [cw3] gEx 100).2.2 (by decide)⟩

/-! ## Claim C4: duplicate healing -/

/-- **C4 (amended).** For a phone key with two or more sink locations,
the first (smallest) row is canonical: every other location of the key
is scheduled for a blank-out clear, the canonical row is never cleared,
and — when the key is also present in the roster — the canonical row
receives the update.  (As stated the claim also promised the update for
keys absent from the roster; see the counterexample.) -/
theorem C4_duplicate_healing (today : String) (clients : List ClientRecord)
    (g : Grid) (k : String) (rs : List Nat)
    (he : (k, rs) ∈ get_existing_phones g) (hlen : 2 ≤ rs.length) :
    (∀ r ∈ rs, rs.headD 0 ≤ r) ∧
    (∀ r ∈ rs.tail,
      clearRange r ∈ (makePlan today clients g).duplicate_clears) ∧
    (∀ u ∈ (makePlan today clients g).duplicate_clears,
      u.startRow ≠ rs.headD 0) ∧
    ((∃ e, (k, e) ∈ buildRoster clients) →
      ∃ u ∈ (makePlan today clients g).all_updates,
        u.startRow = rs.headD 0) := by
  have hrs : rowsOf (get_existing_phones g) k = rs :=
    rowsOf_entry (nodup_keys_get_existing g) he
  have hpw : rs.Pairwise (· < ·) := hrs ▸ rowsOf_pairwise g k
  obtain ⟨a, t, rfl⟩ : ∃ a t, rs = a :: t := by
    cases rs with
    | nil => simp at hlen
    | cons a t => exact ⟨a, t, rfl⟩
  have hlt : ∀ r ∈ t, a < r := (List.pairwise_cons.mp hpw).1
  refine ⟨?_, ?_, ?_, ?_⟩
  · intro r hr
    rcases List.mem_cons.mp hr with rfl | hr
    · simp
    · simp only [List.headD_cons]
      exact Nat.le_of_lt (hlt r hr)
  · intro r hr
    rw [makePlan_clears]
    apply List.mem_flatten.mpr
    refine ⟨(a :: t).tail.map clearRange, ?_,
      List.mem_map_of_mem clearRange hr⟩
    exact List.mem_map_of_mem (fun kr => kr.2.tail.map clearRange) he
  · intro u hu hrow
    rw [makePlan_clears] at hu
    obtain ⟨cells, hcells, hu2⟩ := List.mem_flatten.mp hu
    obtain ⟨e', he', rfl⟩ := List.mem_map.mp hcells
    obtain ⟨r, hr, rfl⟩ := List.mem_map.mp hu2
    have hra : r = a := hrow
    have hrtail : r ∈ e'.2 := List.mem_of_mem_tail hr
    have hre' : rowsOf (get_existing_phones g) e'.1 = e'.2 :=
      rowsOf_entry (nodup_keys_get_existing g)
        (by rcases e' with ⟨k', rs'⟩; exact he')
    have hmem1 : r ∈ rowsOf (get_existing_phones g) e'.1 := by
      rw [hre']
      exact hrtail
    have hmem2 : a ∈ rowsOf (get_existing_phones g) k := by
      rw [hrs]
      exact List.mem_cons_self a t
    have hkeq : e'.1 = k := by
      have h1 := (mem_rowsOf_iff.mp hmem1).2
      have h2 := (mem_rowsOf_iff.mp hmem2).2
      rw [hra] at h1
      rw [h1] at h2
      exact Option.some.inj h2
    rw [hkeq, hrs] at hre'
    rw [← hre'] at hr
    have hcontra : a < r := hlt r hr
    omega
  · rintro ⟨e, hk⟩
    have hget : dictGet (ne0_of (get_existing_phones g)) k = a := by
      rw [dictGet_ne0, hrs]
      rfl
    have hz : dictGet (ne0_of (get_existing_phones g)) k ≠ 0 := by
      rw [hget]
      have : a ∈ rowsOf (get_existing_phones g) k := by
        rw [hrs]
        exact List.mem_cons_self a t
      have := rowsOf_ge_two this
      omega
    refine ⟨⟨a, 2, [[k]]⟩, ?_, rfl⟩
    rw [makePlan_all_updates]
    apply List.mem_flatten.mpr
    refine ⟨updatesFor k e (dictGet (ne0_of (get_existing_phones g)) k),
      ?_, ?_⟩
    · have hfn : (fun pe : String × RosterEntry =>
          if dictGet (ne0_of (get_existing_phones g)) pe.1 ≠ 0 then
            updatesFor pe.1 pe.2
              (dictGet (ne0_of (get_existing_phones g)) pe.1)
          else []) (k, e)
          = updatesFor k e (dictGet (ne0_of (get_existing_phones g)) k) := by
        simp [hz]
      rw [← hfn]
      exact List.mem_map_of_mem _ hk
    · rw [hget]
      exact List.mem_cons_self _ _

/-- Counterexample to C4 as stated: on the example sink the key
`380501234567` occupies rows 2 and 3, the plan clears row 3 — but with
an empty roster no update at all is emitted, so the canonical row 2
does not "receive the update". -/
theorem C4_counterexample :
    rowsOf (get_existing_phones gEx) "380501234567" = [2, 3] ∧
    (makePlan "01.01.2025" [] gEx).all_updates = [] ∧
    (makePlan "01.01.2025" [] gEx).duplicate_clears = [clearRange 3] := by
  refine ⟨by decide, by decide, by decide⟩

/-- Witness for C4 (amended): key `380501234567` at rows 2 and 3 with a
matching roster record; row 2 is canonical and updated, row 3 cleared. -/
theorem C4_witness :
    (∀ r ∈ ([2, 3] : List Nat), (([2, 3] : List Nat)).headD 0 ≤ r) ∧
    (∀ r ∈ ([2, 3] : List Nat).tail,
      clearRange r ∈ (makePlan "01.01.2025" [cw1] gEx).duplicate_clears) ∧
    (∀ u ∈ (makePlan "01.01.2025" [cw1] gEx).duplicate_clears,
      u.startRow ≠ ([2, 3] : List Nat).headD 0) ∧
    ((∃ e, ("380501234567", e) ∈ buildRoster [cw1]) →
      ∃ u ∈ (makePlan "01.01.2025" [cw1] gEx).all_updates,
        u.startRow = ([2, 3] : List Nat).headD 0) :=
  C4_duplicate_healing "01.01.2025" [cw1] gEx "380501234567" [2, 3]
    (by decide) (by decide)

/-! ## Lemmas: grid semantics of applied writes -/

theorem nth_append_left {α : Type} {l l' : List α} {i : Nat} (d : α)
    (h : i < l.length) : nth (l ++ l') i d = nth l i d := by
  induction l generalizing i with
  | nil => simp at h
  | cons a t ih =>
    cases i with
    | zero => rfl
    | succ n => exact ih (by simpa using h)

theorem nth_append_right {α : Type} {l l' : List α} {i : Nat} (d : α)
    (h : l.length ≤ i) : nth (l ++ l') i d = nth l' (i - l.length) d := by
  induction l generalizing i with
  | nil => simp
  | cons a t ih =>
    cases i with
    | zero => simp at h
    | succ n =>
      show nth (t ++ l') n d = _
      rw [ih (by simpa using h)]
      congr 1
      simp only [List.length_cons]
      omega

theorem cellAt_setCell (g : Grid) {r : Nat} (c : Nat) (v : Cell)
    {r' : Nat} (c' : Nat) (hr : 1 ≤ r) (hr' : 1 ≤ r') :
    cellAt (setCell g r c v) r' c'
      = if r' = r ∧ c' = c then v else cellAt g r' c' := by
  rw [setCell, cellAt, cellAt]
  by_cases hrr : r' = r
  · subst hrr
    rw [nth_setNth_self]
    by_cases hcc : c' = c
    · subst hcc
      rw [nth_setNth_self, if_pos ⟨rfl, rfl⟩]
    · rw [nth_setNth_ne _ (fun h => hcc h.symm),
        if_neg (fun h => hcc h.2)]
  · have hne : r - 1 ≠ r' - 1 := fun h => hrr (by omega)
    rw [nth_setNth_ne _ hne, if_neg (fun h => hrr h.1)]

theorem applyCells_append (g : Grid) (xs ys : List CellWrite) :
    applyCells g (xs ++ ys) = applyCells (applyCells g xs) ys :=
  List.foldl_append _ _ xs ys

theorem applyCells_no_write {g : Grid} {ws : List CellWrite}
    {r c : Nat} (hr : 1 ≤ r) (hrows : ∀ w ∈ ws, 1 ≤ w.row)
    (hno : ∀ w ∈ ws, ¬(w.row = r ∧ w.col = c)) :
    cellAt (applyCells g ws) r c = cellAt g r c := by
  induction ws generalizing g with
  | nil => rfl
  | cons w t ih =>
    show cellAt (applyCells (setCell g w.row w.col w.val) t) r c = _
    rw [ih (fun x hx => hrows x (List.mem_cons_of_mem w hx))
      (fun x hx => hno x (List.mem_cons_of_mem w hx))]
    rw [cellAt_setCell g w.col w.val c
      (hrows w (List.mem_cons_self w t)) hr]
    rw [if_neg (fun h => hno w (List.mem_cons_self w t) ⟨h.1.symm, h.2.symm⟩)]

theorem applyCells_const {g : Grid} {ws : List CellWrite}
    {r c : Nat} {v : Cell} (hr : 1 ≤ r) (hrows : ∀ w ∈ ws, 1 ≤ w.row)
    (hex : ∃ w ∈ ws, w.row = r ∧ w.col = c)
    (hval : ∀ w ∈ ws, w.row = r → w.col = c → w.val = v) :
    cellAt (applyCells g ws) r c = v := by
  induction ws generalizing g with
  | nil => simp at hex
  | cons w t ih =>
    show cellAt (applyCells (setCell g w.row w.col w.val) t) r c = v
    by_cases hex2 : ∃ x ∈ t, x.row = r ∧ x.col = c
    · exact ih (fun x hx => hrows x (List.mem_cons_of_mem w hx)) hex2
        (fun x hx => hval x (List.mem_cons_of_mem w hx))
    · have hw : w.row = r ∧ w.col = c := by
        obtain ⟨x, hx, hxrc⟩ := hex
        rcases List.mem_cons.mp hx with rfl | hx
        · exact hxrc
        · exact absurd ⟨x, hx, hxrc⟩ hex2
      rw [applyCells_no_write hr
        (fun x hx => hrows x (List.mem_cons_of_mem w hx))
        (fun x hx hxrc => hex2 ⟨x, hx, hxrc⟩)]
      rw [cellAt_setCell g w.col w.val c
        (hrows w (List.mem_cons_self w t)) hr]
      rw [if_pos ⟨hw.1.symm, hw.2.symm⟩]
      exact hval w (List.mem_cons_self w t) hw.1 hw.2

theorem cellAt_congr_applyCells {g1 g2 : Grid} (ws : List CellWrite)
    (hrows : ∀ w ∈ ws, 1 ≤ w.row)
    (h : ∀ r c, 1 ≤ r → cellAt g1 r c = cellAt g2 r c) :
    ∀ r c, 1 ≤ r → cellAt (applyCells g1 ws) r c
      = cellAt (applyCells g2 ws) r c := by
  induction ws generalizing g1 g2 with
  | nil => exact h
  | cons w t ih =>
    intro r c hr
    show cellAt (applyCells (setCell g1 w.row w.col w.val) t) r c
      = cellAt (applyCells (setCell g2 w.row w.col w.val) t) r c
    refine ih (fun x hx => hrows x (List.mem_cons_of_mem w hx))
      ?_ r c hr
    intro r' c' hr'
    rw [cellAt_setCell g1 w.col w.val c'
      (hrows w (List.mem_cons_self w t)) hr',
      cellAt_setCell g2 w.col w.val c'
      (hrows w (List.mem_cons_self w t)) hr']
    by_cases hc : r' = w.row ∧ c' = w.col
    · rw [if_pos hc, if_pos hc]
    · rw [if_neg hc, if_neg hc]
      exact h r' c' hr'

theorem cellAt_grow (g : Grid) (n r c : Nat) :
    cellAt (g ++ List.replicate n ([] : Rowv)) r c = cellAt g r c := by
  rw [cellAt, cellAt]
  by_cases h : r - 1 < g.length
  · rw [nth_append_left _ h]
  · push_neg at h
    rw [nth_append_right _ h, nth_replicate, nth_ge g _ _ h]

theorem foldl_applyRange_eq (ch : List UpdateRange) (g : Grid) :
    ch.foldl applyRange g = applyCells g ((ch.map cellsOfRange).flatten) := by
  induction ch generalizing g with
  | nil => rfl
  | cons u t ih =>
    show t.foldl applyRange (applyRange g u) = _
    rw [ih, List.map_cons, List.flatten_cons, applyCells_append]
    rfl

/-- One event's effect on any cell equals applying its cell list. -/
theorem cellAt_applyEvent (e : Event) (g : Grid) (r c : Nat) :
    cellAt (applyEvent g e) r c = cellAt (applyCells g (cellsOfEvent e)) r c := by
  cases e with
  | clearChunk ch => rw [applyEvent, cellsOfEvent, foldl_applyRange_eq]
  | grow n =>
    rw [applyEvent, cellsOfEvent]
    exact cellAt_grow g n r c
  | appendWrite s rows => rfl
  | updateChunk ch => rw [applyEvent, cellsOfEvent, foldl_applyRange_eq]

/-- A trace's effect on any cell equals applying the concatenation of
the events' cell lists, provided every write targets a real row. -/
theorem cellAt_foldl_applyEvent (tr : List Event) (g : Grid)
    (hrows : ∀ e ∈ tr, ∀ w ∈ cellsOfEvent e, 1 ≤ w.row) :
    ∀ r c, 1 ≤ r → cellAt (tr.foldl applyEvent g) r c
      = cellAt (applyCells g ((tr.map cellsOfEvent).flatten)) r c := by
  induction tr generalizing g with
  | nil => intro r c hr; rfl
  | cons e t ih =>
    intro r c hr
    show cellAt (t.foldl applyEvent (applyEvent g e)) r c = _
    rw [List.map_cons, List.flatten_cons, applyCells_append]
    have h1 := ih (applyEvent g e)
      (fun x hx => hrows x (List.mem_cons_of_mem e hx)) r c hr
    rw [h1]
    exact cellAt_congr_applyCells ((t.map cellsOfEvent).flatten)
      (fun w hw => by
        obtain ⟨cells, hcells, hwc⟩ := List.mem_flatten.mp hw
        obtain ⟨e', he', rfl⟩ := List.mem_map.mp hcells
        exact hrows e' (List.mem_cons_of_mem e he') w hwc)
      (fun r' c' hr' => cellAt_applyEvent e g r' c') r c hr

/-- The chunking of range lists does not change the written cells. -/
theorem chunked_cells (L : List (List UpdateRange)) :
    ((L.map (fun ch => (ch.map cellsOfRange).flatten))).flatten
      = (L.flatten.map cellsOfRange).flatten := by
  induction L with
  | nil => rfl
  | cons ch t ih =>
    rw [List.map_cons, List.flatten_cons, List.flatten_cons,
      List.map_append, List.flatten_append, ih]

/-- The cells of the writer trace are exactly the plan's cells, in
order. -/
theorem trace_cells_eq (p : Plan) (cap : Nat) :
    ((writerTrace p cap).map cellsOfEvent).flatten = planCells p := by
  rw [writerTrace, planCells]
  rw [List.map_append, List.map_append, List.map_append,
    List.flatten_append, List.flatten_append, List.flatten_append]
  have hA : ((clearEvents p).map cellsOfEvent).flatten = clearCells p := by
    rw [clearEvents, clearCells]
    split
    · rename_i hemp
      rw [List.isEmpty_iff] at hemp
      rw [hemp]
      rfl
    · rw [List.map_map]
      have : cellsOfEvent ∘ Event.clearChunk
          = fun ch => (ch.map cellsOfRange).flatten := rfl
      rw [this, chunked_cells, pyChunks_flatten 100 (by omega)]
  have hB : ((growEvents p cap).map cellsOfEvent).flatten = [] := by
    rw [growEvents]
    split <;> rfl
  have hC : ((appendEvents p).map cellsOfEvent).flatten = appendCells p := by
    rw [appendEvents, appendCells]
    split
    · rename_i hemp
      rw [List.isEmpty_iff] at hemp
      rw [hemp]
      show ([] : List CellWrite) = rangeCells (p.last_row + 1) 0 []
      rfl
    · show cellsOfRange ⟨p.last_row + 1, 0, p.new_rows⟩ ++ [] = _
      rw [List.append_nil]
  have hD : ((updateEvents p).map cellsOfEvent).flatten = updateCells p := by
    rw [updateEvents, updateCells]
    split
    · rename_i hemp
      rw [List.isEmpty_iff] at hemp
      rw [hemp]
      rfl
    · rw [List.map_map]
      have : cellsOfEvent ∘ Event.updateChunk
          = fun ch => (ch.map cellsOfRange).flatten := rfl
      rw [this, chunked_cells, pyChunks_flatten 100 (by omega)]
  rw [hA, hB, hC, hD, List.append_nil]

/-- The cycle's effect on any cell is that of the plan's cell writes. -/
theorem cellAt_runCycle (today : String) (clients : List ClientRecord)
    (g : Grid) (cap : Nat) (r c : Nat) (hr : 1 ≤ r) :
    cellAt (runCycle today clients g cap) r c
      = cellAt (applyCells g (planCells (makePlan today clients g))) r c := by
  rw [runCycle]
  rw [cellAt_foldl_applyEvent _ g ?hrows r c hr, trace_cells_eq]
  case hrows =>
    intro e he w hw
    have hwp : w ∈ planCells (makePlan today clients g) := by
      rw [← trace_cells_eq (makePlan today clients g) cap]
      exact List.mem_flatten.mpr ⟨cellsOfEvent e,
        List.mem_map_of_mem cellsOfEvent he, hw⟩
    have := planCells_row_ge_two today clients g w hwp
    omega

/-! ## Lemmas: classification of a cycle's cell writes -/

theorem key_unique {g : Grid} {r : Nat} {k k' : String}
    (h1 : r ∈ rowsOf (get_existing_phones g) k)
    (h2 : r ∈ rowsOf (get_existing_phones g) k') : k = k' := by
  have e1 := (mem_rowsOf_iff.mp h1).2
  have e2 := (mem_rowsOf_iff.mp h2).2
  rw [e1] at e2
  exact Option.some.inj e2

theorem head_not_tail {g : Grid} {k : String} {r : Nat}
    (hh : r = (rowsOf (get_existing_phones g) k).headD 0)
    (ht : r ∈ (rowsOf (get_existing_phones g) k).tail) : False := by
  have hpw := rowsOf_pairwise g k
  rcases hrows : rowsOf (get_existing_phones g) k with _ | ⟨a, t⟩
  · rw [hrows] at ht
    simp at ht
  · rw [hrows] at ht hh hpw
    have hlt := (List.pairwise_cons.mp hpw).1
    have : a < r := hlt r ht
    have : r = a := hh
    omega

theorem clear_row_facts {g : Grid} {k : String} {r : Nat}
    (hk : r ∈ (rowsOf (get_existing_phones g) k).tail) :
    r ∈ rowsOf (get_existing_phones g) k ∧ 2 ≤ r ∧
      r ≤ last_row_of (get_existing_phones g) := by
  have hmem := List.mem_of_mem_tail hk
  exact ⟨hmem, rowsOf_ge_two hmem, le_last_row_of hmem⟩

/-- Every cell write of a plan, classified with its row and value. -/
theorem planCells_cases {today : String} {clients : List ClientRecord}
    {g : Grid} {w : CellWrite}
    (hw : w ∈ planCells (makePlan today clients g)) :
    (∃ k, w.row ∈ (rowsOf (get_existing_phones g) k).tail ∧
      w.col < 26 ∧ w.val = "") ∨
    (∃ i, i < (makePlan today clients g).new_rows.length ∧ ∃ j,
      j < (nth (makePlan today clients g).new_rows i []).length ∧
      w = ⟨(makePlan today clients g).last_row + 1 + i, 0 + j,
        nth (nth (makePlan today clients g).new_rows i []) j ""⟩) ∨
    (∃ pe ∈ buildRoster clients,
      dictGet (ne0_of (get_existing_phones g)) pe.1 ≠ 0 ∧
      (w = ⟨dictGet (ne0_of (get_existing_phones g)) pe.1, 2, pe.1⟩ ∨
       w = ⟨dictGet (ne0_of (get_existing_phones g)) pe.1, 4,
            pe.2.drive_folder_url⟩ ∨
       ∃ j, j < 10 ∧ w = ⟨dictGet (ne0_of (get_existing_phones g)) pe.1,
            5 + j, nth (checkboxes pe.2) j ""⟩)) := by
  rw [planCells, List.mem_append, List.mem_append] at hw
  rcases hw with (hw | hw) | hw
  · left
    obtain ⟨e, he, r, hr, hrow, hcol, hval⟩ := mem_clears_cells.mp hw
    have hrs : rowsOf (get_existing_phones g) e.1 = e.2 :=
      rowsOf_entry (nodup_keys_get_existing g)
        (by rcases e with ⟨k', rs'⟩; exact he)
    refine ⟨e.1, ?_, hcol, hval⟩
    rw [hrs, hrow]
    exact hr
  · right
    left
    obtain ⟨i, hi, h⟩ := mem_rangeCells.mp hw
    obtain ⟨j, hj, rfl⟩ := mem_rowCells.mp h
    exact ⟨i, hi, j, hj, rfl⟩
  · right
    right
    rw [updateCells, makePlan_all_updates] at hw
    exact mem_updates_cells.mp hw

theorem planCells_rows_pos (today : String) (clients : List ClientRecord)
    (g : Grid) : ∀ w ∈ planCells (makePlan today clients g), 1 ≤ w.row :=
  fun w hw => by
    have := planCells_row_ge_two today clients g w hw
    omega

/-- A cleared duplicate row reads back blank in the phone column. -/
theorem cellAt_after_cleared {today : String} {clients : List ClientRecord}
    {g : Grid} {k : String} {r : Nat}
    (hk : r ∈ (rowsOf (get_existing_phones g) k).tail) :
    cellAt (applyCells g (planCells (makePlan today clients g))) r 2
      = "" := by
  obtain ⟨hmem, hr2, hle⟩ := clear_row_facts hk
  have hne : rowsOf (get_existing_phones g) k ≠ [] := by
    intro hnil
    rw [hnil] at hk
    simp at hk
  apply applyCells_const (by omega) (planCells_rows_pos today clients g)
  · refine ⟨⟨r, 2, ""⟩, ?_, rfl, rfl⟩
    rw [planCells, List.mem_append, List.mem_append]
    left
    left
    apply mem_clears_cells.mpr
    exact ⟨(k, rowsOf (get_existing_phones g) k), entry_of_rowsOf_ne hne,
      r, hk, rfl, (show (2 : Nat) < 26 by omega), rfl⟩
  · intro w hw hwr hwc
    rcases planCells_cases hw with ⟨k', hk', -, hval⟩ |
      ⟨i, hi, j, hj, rfl⟩ | ⟨pe, hpe, hz, hcase⟩
    · exact hval
    · exfalso
      have : (makePlan today clients g).last_row + 1 + i = r := hwr
      rw [makePlan_last_row] at this
      omega
    · exfalso
      have hd := (dictGet_ne0_mem hz).1
      have hrow : w.row = dictGet (ne0_of (get_existing_phones g)) pe.1 := by
        rcases hcase with rfl | rfl | ⟨j, hj, rfl⟩ <;> rfl
      rw [hwr] at hrow
      rw [← hrow] at hd
      have hkeq : pe.1 = k := key_unique hd hmem
      have hhead : r = (rowsOf (get_existing_phones g) k).headD 0 := by
        rw [← hkeq, hrow, dictGet_ne0]
      exact head_not_tail hhead hk

/-- A canonical row of a rostered phone reads back the normalized phone
after the cycle. -/
theorem cellAt_after_updated {today : String} {clients : List ClientRecord}
    {g : Grid} {pn : String} {e : RosterEntry}
    (hpe : (pn, e) ∈ buildRoster clients)
    (hz : dictGet (ne0_of (get_existing_phones g)) pn ≠ 0) :
    cellAt (applyCells g (planCells (makePlan today clients g)))
      (dictGet (ne0_of (get_existing_phones g)) pn) 2 = pn := by
  obtain ⟨hd, hd2⟩ := dictGet_ne0_mem hz
  apply applyCells_const (by omega) (planCells_rows_pos today clients g)
  · refine ⟨⟨dictGet (ne0_of (get_existing_phones g)) pn, 2, pn⟩,
      ?_, rfl, rfl⟩
    rw [planCells, List.mem_append, List.mem_append]
    right
    rw [updateCells, makePlan_all_updates]
    exact mem_updates_cells.mpr ⟨(pn, e), hpe, hz, Or.inl rfl⟩
  · intro w hw hwr hwc
    rcases planCells_cases hw with ⟨k', hk', -, hval⟩ |
      ⟨i, hi, j, hj, rfl⟩ | ⟨pe', hpe', hz', hcase⟩
    · exfalso
      have hmem' := List.mem_of_mem_tail hk'
      rw [hwr] at hmem' hk'
      have hkeq : k' = pn := key_unique hmem' hd
      rw [hkeq] at hk'
      exact head_not_tail (by rw [dictGet_ne0]) hk'
    · exfalso
      have : (makePlan today clients g).last_row + 1 + i
          = dictGet (ne0_of (get_existing_phones g)) pn := hwr
      rw [makePlan_last_row] at this
      have := le_last_row_of hd
      omega
    · have hd' := (dictGet_ne0_mem hz').1
      have hrow : w.row = dictGet (ne0_of (get_existing_phones g)) pe'.1 := by
        rcases hcase with rfl | rfl | ⟨j, hj, rfl⟩ <;> rfl
      rw [hwr] at hrow
      rw [← hrow] at hd'
      have hkeq : pe'.1 = pn := key_unique hd' hd
      rcases hcase with rfl | rfl | ⟨j, hj, rfl⟩
      · exact hkeq
      · exact absurd hwc (by simp)
      · exfalso
        have : 5 + j = 2 := hwc
        omega

/-- An appended block row reads back its own phone cell. -/
theorem cellAt_after_append {today : String} {clients : List ClientRecord}
    {g : Grid} {i : Nat}
    (hi : i < (makePlan today clients g).new_rows.length) :
    cellAt (applyCells g (planCells (makePlan today clients g)))
      ((makePlan today clients g).last_row + 1 + i) 2
      = nth (nth (makePlan today clients g).new_rows i []) 2 "" := by
  have hlen : (nth (makePlan today clients g).new_rows i []).length = 15 := by
    have hi' := hi
    rw [makePlan_new_rows, rosterNewRows] at hi'
    rw [makePlan_new_rows, rosterNewRows]
    have hmem := nth_mem ([] : Rowv) hi'
    obtain ⟨pe, -, hrow⟩ := List.mem_map.mp hmem
    rw [← hrow]
    exact materializeRow_length today pe.1 pe.2
  apply applyCells_const
    (by
      have := last_row_of_ge_one (get_existing_phones g)
      rw [makePlan_last_row]
      omega)
    (planCells_rows_pos today clients g)
  · refine ⟨⟨(makePlan today clients g).last_row + 1 + i, 0 + 2,
      nth (nth (makePlan today clients g).new_rows i []) 2 ""⟩, ?_, rfl, rfl⟩
    rw [planCells, List.mem_append, List.mem_append]
    left
    right
    exact mem_rangeCells.mpr ⟨i, hi, mem_rowCells.mpr
      ⟨2, by
        show 2 < (nth (makePlan today clients g).new_rows i []).length
        rw [hlen]
        omega, rfl⟩⟩
  · intro w hw hwr hwc
    rcases planCells_cases hw with ⟨k', hk', -, -⟩ |
      ⟨i', hi', j', hj', rfl⟩ | ⟨pe', hpe', hz', hcase⟩
    · exfalso
      obtain ⟨-, -, hle⟩ := clear_row_facts hk'
      rw [hwr] at hle
      rw [makePlan_last_row] at hle
      omega
    · have hieq : i' = i := by
        have : (makePlan today clients g).last_row + 1 + i'
            = (makePlan today clients g).last_row + 1 + i := hwr
        omega
      subst hieq
      have hjeq : j' = 2 := by
        have : 0 + j' = 2 := hwc
        omega
      subst hjeq
      rfl
    · exfalso
      have hd' := (dictGet_ne0_mem hz').1
      have hrow : w.row = dictGet (ne0_of (get_existing_phones g)) pe'.1 := by
        rcases hcase with rfl | rfl | ⟨j, hj, rfl⟩ <;> rfl
      rw [hwr] at hrow
      have := le_last_row_of hd'
      rw [← hrow] at this
      rw [makePlan_last_row] at this
      omega

/-- Rows the cycle does not write keep their phone cell. -/
theorem cellAt_after_untouched {today : String}
    {clients : List ClientRecord} {g : Grid} {r : Nat} (hr2 : 2 ≤ r)
    (hnotrow : ∀ k, r ∉ rowsOf (get_existing_phones g) k)
    (hnotapp : ¬(last_row_of (get_existing_phones g) < r ∧
      r ≤ last_row_of (get_existing_phones g) +
        (makePlan today clients g).new_rows.length)) :
    cellAt (applyCells g (planCells (makePlan today clients g))) r 2
      = cellAt g r 2 := by
  apply applyCells_no_write (by omega) (planCells_rows_pos today clients g)
  intro w hw hcon
  obtain ⟨hwr, hwc⟩ := hcon
  rcases planCells_cases hw with ⟨k', hk', -, -⟩ |
    ⟨i, hi, j, hj, rfl⟩ | ⟨pe', hpe', hz', hcase⟩
  · have hmem := List.mem_of_mem_tail hk'
    rw [hwr] at hmem
    exact hnotrow k' hmem
  · have : (makePlan today clients g).last_row + 1 + i = r := hwr
    rw [makePlan_last_row] at this
    exact hnotapp ⟨by omega, by omega⟩
  · have hd' := (dictGet_ne0_mem hz').1
    have hrow : w.row = dictGet (ne0_of (get_existing_phones g)) pe'.1 := by
      rcases hcase with rfl | rfl | ⟨j, hj, rfl⟩ <;> rfl
    rw [hwr] at hrow
    rw [← hrow] at hd'
    exact hnotrow pe'.1 hd'

/-! ## Lemmas: the phone column after a full cycle -/

theorem keyOfCell_roster_key {clients : List ClientRecord} {pn : String}
    {e : RosterEntry} (hpe : (pn, e) ∈ buildRoster clients) :
    keyOfCell pn = some pn := by
  have hg := buildRoster_keys_good clients (pn, e) hpe
  exact keyOfCell_normalized hg.1 hg.2.1 hg.2.2

theorem mem_missingKeys_roster {ne0 : List (String × Nat)}
    {roster : List (String × RosterEntry)} {v : String}
    (h : v ∈ missingKeys ne0 roster) :
    (∃ e, (v, e) ∈ roster) ∧ dictGet ne0 v = 0 := by
  rw [missingKeys] at h
  obtain ⟨pe, hpe, rfl⟩ := List.mem_map.mp h
  have hmem := List.mem_of_mem_filter hpe
  have hpred := List.of_mem_filter hpe
  refine ⟨⟨pe.2, ?_⟩, by simpa using hpred⟩
  rw [Prod.mk.eta]
  exact hmem

theorem missingKeys_length (today : String) (clients : List ClientRecord)
    (g : Grid) :
    (missingKeys (ne0_of (get_existing_phones g))
      (buildRoster clients)).length
      = (makePlan today clients g).new_rows.length := by
  rw [← makePlan_phone_cells today clients g, List.length_map]

theorem missingKeys_nodup (clients : List ClientRecord)
    (ne0 : List (String × Nat)) :
    (missingKeys ne0 (buildRoster clients)).Nodup := by
  rw [missingKeys]
  exact (nodup_keys_buildRoster clients).sublist
    ((List.filter_sublist _).map Prod.fst)

theorem missingKeys_get_inj {clients : List ClientRecord}
    {ne0 : List (String × Nat)} {j j' : Nat} {k : String}
    (h1 : (missingKeys ne0 (buildRoster clients)).get? j = some k)
    (h2 : (missingKeys ne0 (buildRoster clients)).get? j' = some k) :
    j = j' := by
  obtain ⟨hj, hgj⟩ := List.get?_eq_some.mp h1
  obtain ⟨hj', hgj'⟩ := List.get?_eq_some.mp h2
  have heq : (⟨j, hj⟩ : Fin _) = ⟨j', hj'⟩ :=
    (List.Nodup.get_inj_iff (missingKeys_nodup clients ne0)).mp
      (by rw [hgj, hgj'])
  have := congrArg Fin.val heq
  simpa using this

theorem dictGet_ne_zero_of_mem {g : Grid} {q : String} {r : Nat}
    (h : r ∈ rowsOf (get_existing_phones g) q) :
    dictGet (ne0_of (get_existing_phones g)) q ≠ 0 := by
  rw [dictGet_ne0]
  rcases hrows : rowsOf (get_existing_phones g) q with _ | ⟨a, t⟩
  · rw [hrows] at h
    simp at h
  · have ha : a ∈ rowsOf (get_existing_phones g) q := by
      rw [hrows]
      exact List.mem_cons_self a t
    have := rowsOf_ge_two ha
    simp only [List.headD_cons]
    omega

theorem keyAt_runCycle (today : String) (clients : List ClientRecord)
    (g : Grid) (cap : Nat) (r : Nat) (hr : 1 ≤ r) :
    keyAt (runCycle today clients g cap) r
      = keyAt (applyCells g (planCells (makePlan today clients g))) r := by
  rw [keyAt, keyAt, cellAt_runCycle today clients g cap r 2 hr]

/-- The canonical row of a key with no roster record keeps its phone
cell through the cycle. -/
theorem cellAt_after_orphan_head {today : String}
    {clients : List ClientRecord} {g : Grid} {k0 : String} {r : Nat}
    (hmem : r ∈ rowsOf (get_existing_phones g) k0)
    (hhead : r = (rowsOf (get_existing_phones g) k0).headD 0)
    (hnorost : ∀ e, (k0, e) ∉ buildRoster clients) :
    cellAt (applyCells g (planCells (makePlan today clients g))) r 2
      = cellAt g r 2 := by
  have hr2 := rowsOf_ge_two hmem
  apply applyCells_no_write (by omega) (planCells_rows_pos today clients g)
  intro w hw hcon
  obtain ⟨hwr, hwc⟩ := hcon
  rcases planCells_cases hw with ⟨k', hk', -, -⟩ |
    ⟨i, hi, j, hj, rfl⟩ | ⟨pe', hpe', hz', hcase⟩
  · have hmem' := List.mem_of_mem_tail hk'
    rw [hwr] at hmem' hk'
    have hkeq : k' = k0 := key_unique hmem' hmem
    rw [hkeq] at hk'
    exact head_not_tail hhead hk'
  · have : (makePlan today clients g).last_row + 1 + i = r := hwr
    rw [makePlan_last_row] at this
    have := le_last_row_of hmem
    omega
  · have hd' := (dictGet_ne0_mem hz').1
    have hrow : w.row = dictGet (ne0_of (get_existing_phones g)) pe'.1 := by
      rcases hcase with rfl | rfl | ⟨j, hj, rfl⟩ <;> rfl
    rw [hwr] at hrow
    rw [← hrow] at hd'
    have hkeq : pe'.1 = k0 := key_unique hd' hmem
    refine hnorost pe'.2 ?_
    rw [← hkeq, Prod.mk.eta]
    exact hpe'

theorem keyAt_after_updated {today : String}
    {clients : List ClientRecord} {g : Grid} {pn : String}
    {e : RosterEntry} (hpe : (pn, e) ∈ buildRoster clients)
    (hz : dictGet (ne0_of (get_existing_phones g)) pn ≠ 0) :
    keyAt (applyCells g (planCells (makePlan today clients g)))
      (dictGet (ne0_of (get_existing_phones g)) pn) = some pn := by
  rw [keyAt, cellAt_after_updated hpe hz, keyOfCell_roster_key hpe]

theorem keyAt_after_append_row (today : String)
    (clients : List ClientRecord) (g : Grid) {j : Nat}
    (hj : j < (makePlan today clients g).new_rows.length) :
    ∃ v, (missingKeys (ne0_of (get_existing_phones g))
        (buildRoster clients)).get? j = some v ∧
      keyAt (applyCells g (planCells (makePlan today clients g)))
        (last_row_of (get_existing_phones g) + 1 + j) = some v := by
  have hget : (missingKeys (ne0_of (get_existing_phones g))
      (buildRoster clients)).get? j
      = some (nth (nth (makePlan today clients g).new_rows j []) 2 "") := by
    rw [← makePlan_phone_cells today clients g, List.get?_map]
    cases hx : (makePlan today clients g).new_rows.get? j with
    | none =>
      have := List.get?_eq_none.mp hx
      omega
    | some row =>
      have hnth : nth (makePlan today clients g).new_rows j [] = row := by
        rw [nth_eq_getD, hx]
        rfl
      rw [hnth]
      rfl
  obtain ⟨⟨e, he⟩, -⟩ := mem_missingKeys_roster (List.get?_mem hget)
  refine ⟨_, hget, ?_⟩
  have harith : last_row_of (get_existing_phones g) + 1 + j
      = (makePlan today clients g).last_row + 1 + j := by
    rw [makePlan_last_row]
  rw [harith, keyAt, cellAt_after_append hj, keyOfCell_roster_key he]

/-- After a cycle, a data row showing key `k` is either the canonical
(first) sink row of `k` or the appended row of a missing roster key. -/
theorem keyAt_after_cycle_cases {today : String}
    {clients : List ClientRecord} {g : Grid} {r : Nat} {k : String}
    (hr2 : 2 ≤ r)
    (hk : keyAt (applyCells g (planCells (makePlan today clients g))) r
      = some k) :
    (rowsOf (get_existing_phones g) k ≠ [] ∧
      r = (rowsOf (get_existing_phones g) k).headD 0) ∨
    (∃ j, (missingKeys (ne0_of (get_existing_phones g))
        (buildRoster clients)).get? j = some k ∧
      r = last_row_of (get_existing_phones g) + 1 + j) := by
  by_cases hdup : ∃ k0, r ∈ (rowsOf (get_existing_phones g) k0).tail
  · obtain ⟨k0, hk0⟩ := hdup
    rw [keyAt, cellAt_after_cleared hk0, keyOfCell_empty] at hk
    exact Option.noConfusion hk
  by_cases hmem : ∃ k0, r ∈ rowsOf (get_existing_phones g) k0
  · obtain ⟨k0, hk0⟩ := hmem
    have hhead : r = (rowsOf (get_existing_phones g) k0).headD 0 := by
      rcases hrows : rowsOf (get_existing_phones g) k0 with _ | ⟨a, t⟩
      · rw [hrows] at hk0
        simp at hk0
      · rw [hrows] at hk0
        rcases List.mem_cons.mp hk0 with rfl | hmem2
        · rfl
        · exact absurd ⟨k0, by rw [hrows]; exact hmem2⟩ hdup
    have hne : rowsOf (get_existing_phones g) k0 ≠ [] := by
      intro hnil
      rw [hnil] at hk0
      simp at hk0
    by_cases hrost : ∃ e, (k0, e) ∈ buildRoster clients
    · obtain ⟨e, he⟩ := hrost
      have hz : dictGet (ne0_of (get_existing_phones g)) k0 ≠ 0 :=
        dictGet_ne_zero_of_mem hk0
      have hdg : dictGet (ne0_of (get_existing_phones g)) k0 = r := by
        rw [dictGet_ne0, ← hhead]
      have hu := @keyAt_after_updated today _ _ _ _ he hz
      rw [hdg] at hu
      rw [hu] at hk
      have hkeq : k = k0 := (Option.some.inj hk).symm
      subst hkeq
      exact Or.inl ⟨hne, hhead⟩
    · push_neg at hrost
      have hcell := @cellAt_after_orphan_head today _ _ _ _ hk0 hhead hrost
      rw [keyAt, hcell] at hk
      have hmemk : r ∈ rowsOf (get_existing_phones g) k :=
        mem_rowsOf_iff.mpr ⟨hr2, hk⟩
      have hkeq : k = k0 := key_unique hmemk hk0
      subst hkeq
      exact Or.inl ⟨hne, hhead⟩
  · push_neg at hmem
    by_cases happ : last_row_of (get_existing_phones g) < r ∧
        r ≤ last_row_of (get_existing_phones g) +
          (makePlan today clients g).new_rows.length
    · have hj : r - last_row_of (get_existing_phones g) - 1
          < (makePlan today clients g).new_rows.length := by omega
      obtain ⟨v, hv, hkv⟩ := keyAt_after_append_row today clients g hj
      have harith : last_row_of (get_existing_phones g) + 1 +
          (r - last_row_of (get_existing_phones g) - 1) = r := by omega
      rw [harith] at hkv
      rw [hkv] at hk
      have hveq : v = k := Option.some.inj hk
      subst hveq
      exact Or.inr ⟨_, hv, by omega⟩
    · have hcell := cellAt_after_untouched hr2 hmem happ
      rw [keyAt, hcell] at hk
      have hmemk : r ∈ rowsOf (get_existing_phones g) k :=
        mem_rowsOf_iff.mpr ⟨hr2, hk⟩
      exact absurd hmemk (hmem k)

/-! ## Claim C1: the second cycle's plan -/

/-- **C1 (amended).** With no store changes between the runs, a second
reconciliation cycle right after a first one produces a plan with zero
appends and zero duplicate clears.  (Zero updates does not hold: the
engine re-issues the updates of every rostered phone each cycle; see the
counterexample.) -/
theorem C1_second_cycle_plan (today1 today2 : String)
    (clients : List ClientRecord) (g : Grid) (cap : Nat) :
    (makePlan today2 clients (runCycle today1 clients g cap)).new_rows
        = [] ∧
    (makePlan today2 clients
        (runCycle today1 clients g cap)).duplicate_clears = [] := by
  constructor
  · rw [makePlan_new_rows, rosterNewRows, List.map_eq_nil,
      List.filter_eq_nil]
    intro pe hpe
    simp only [decide_eq_true_eq]
    intro hzero
    suffices hex : ∃ r, r ∈ rowsOf
        (get_existing_phones (runCycle today1 clients g cap)) pe.1 by
      obtain ⟨r, hr⟩ := hex
      exact dictGet_ne_zero_of_mem hr hzero
    by_cases hz1 : dictGet (ne0_of (get_existing_phones g)) pe.1 = 0
    · have hmemks : pe.1 ∈ missingKeys (ne0_of (get_existing_phones g))
          (buildRoster clients) := by
        rw [missingKeys]
        refine List.mem_map.mpr ⟨pe, List.mem_filter.mpr
          ⟨hpe, by simpa using hz1⟩, rfl⟩
      obtain ⟨j, hj⟩ := List.get?_of_mem hmemks
      have hjlt : j < (makePlan today1 clients g).new_rows.length := by
        have := (List.get?_eq_some.mp hj).1
        rw [missingKeys_length today1 clients g] at this
        exact this
      obtain ⟨v, hv, hkv⟩ := keyAt_after_append_row today1 clients g hjlt
      have hveq : v = pe.1 := by
        rw [hv] at hj
        exact Option.some.inj hj
      refine ⟨last_row_of (get_existing_phones g) + 1 + j, ?_⟩
      apply mem_rowsOf_iff.mpr
      have hge := last_row_of_ge_one (get_existing_phones g)
      refine ⟨by omega, ?_⟩
      rw [keyAt_runCycle today1 clients g cap _ (by omega), hkv, hveq]
    · have hroster : (pe.1, pe.2) ∈ buildRoster clients := by
        rw [Prod.mk.eta]
        exact hpe
      have hupd := @keyAt_after_updated today1 _ _ _ _ hroster hz1
      have h2 := (dictGet_ne0_mem hz1).2
      refine ⟨dictGet (ne0_of (get_existing_phones g)) pe.1, ?_⟩
      apply mem_rowsOf_iff.mpr
      refine ⟨h2, ?_⟩
      rw [keyAt_runCycle today1 clients g cap _ (by omega), hupd]
  · rw [makePlan_clears, duplicate_clears_of, List.flatten_eq_nil_iff]
    intro l hl
    obtain ⟨e, he, rfl⟩ := List.mem_map.mp hl
    rw [List.map_eq_nil]
    have hrs : rowsOf (get_existing_phones
        (runCycle today1 clients g cap)) e.1 = e.2 :=
      rowsOf_entry (nodup_keys_get_existing _)
        (by rcases e with ⟨k, rs⟩; exact he)
    rw [← hrs]
    rcases hrows : rowsOf (get_existing_phones
        (runCycle today1 clients g cap)) e.1 with _ | ⟨a, t⟩
    · rfl
    · show t = []
      by_contra htne
      obtain ⟨b, hb⟩ := List.exists_mem_of_ne_nil t htne
      have hpw := rowsOf_pairwise (runCycle today1 clients g cap) e.1
      rw [hrows] at hpw
      have hab : a < b := (List.pairwise_cons.mp hpw).1 b hb
      have hamem : a ∈ rowsOf (get_existing_phones
          (runCycle today1 clients g cap)) e.1 := by
        rw [hrows]
        exact List.mem_cons_self a t
      have hbmem : b ∈ rowsOf (get_existing_phones
          (runCycle today1 clients g cap)) e.1 := by
        rw [hrows]
        exact List.mem_cons_of_mem a hb
      have ha2 := rowsOf_ge_two hamem
      have hb2 := rowsOf_ge_two hbmem
      have hka := (mem_rowsOf_iff.mp hamem).2
      have hkb := (mem_rowsOf_iff.mp hbmem).2
      rw [keyAt_runCycle today1 clients g cap a (by omega)] at hka
      rw [keyAt_runCycle today1 clients g cap b (by omega)] at hkb
      have hca := keyAt_after_cycle_cases ha2 hka
      have hcb := keyAt_after_cycle_cases hb2 hkb
      have hhead_ne : rowsOf (get_existing_phones g) e.1 ≠ [] →
          dictGet (ne0_of (get_existing_phones g)) e.1 ≠ 0 := by
        intro hne1
        rcases hrows1 : rowsOf (get_existing_phones g) e.1 with _ | ⟨a1, t1⟩
        · exact absurd hrows1 hne1
        · refine dictGet_ne_zero_of_mem (r := a1) ?_
          rw [hrows1]
          exact List.mem_cons_self a1 t1
      rcases hca with ⟨hne1, hha⟩ | ⟨j, hja, hra⟩
      · rcases hcb with ⟨-, hhb⟩ | ⟨j', hjb, hrb⟩
        · rw [← hha] at hhb
          omega
        · obtain ⟨-, hz0⟩ := mem_missingKeys_roster (List.get?_mem hjb)
          exact hhead_ne hne1 hz0
      · rcases hcb with ⟨hne1, hhb⟩ | ⟨j', hjb, hrb⟩
        · obtain ⟨-, hz0⟩ := mem_missingKeys_roster (List.get?_mem hja)
          exact hhead_ne hne1 hz0
        · have hjj : j = j' := missingKeys_get_inj hja hjb
          omega

/-- Counterexample to C1 as stated: after a first cycle that appends the
one rostered phone, a second cycle with the unchanged store still emits
the three update range writes for that phone — the second plan's update
list is not empty. -/
theorem C1_counterexample :
    (makePlan "02.01.2025" [cw1]
        (runCycle "01.01.2025" [cw1] gEx 100)).all_updates ≠ [] ∧
    ((makePlan "02.01.2025" [cw1]
        (runCycle "01.01.2025" [cw1] gEx 100)).all_updates).length = 3 := by
  exact ⟨by decide, by decide⟩

end DocBot
